import Mathlib

/-!
Shallow embedding of the immo-eliza-scraping data pipeline.

The embedding covers:
- the character and string primitives of Python that the code relies on
  (strip, lower, substring tests, int parsing, str of an int);
- the field cleaning pipeline of src/immoeliza/pipelines.py
  (DataCleaningPipeline: smart_clean, the per-type cleaners, process_item);
- the dataframe combination of src/clean_data.py (combine_csv_files:
  column alignment, completeness-ordered schema, gap-filling merge);
- the deduplication of src/combine_csv.py (drop_duplicates keep=first).

Machine integers are modelled as Int, strings as Lean String over List Char.
The Python int() parser is modelled for optionally signed decimal digit
strings (underscore separators and non-ASCII digits are out of scope).
Python whitespace is modelled by the common ASCII whitespace characters
plus the no-break space.
-/

namespace ImmoEliza

/-- Characters treated as whitespace by the Python strip and regex \s used here. -/
def isWsChar (c : Char) : Bool :=
  c == ' ' || c == '\t' || c == '\n' || c == '\r' || c == '\x0b' || c == '\x0c' || c == '\u00A0'

/-- Uppercase-to-lowercase table for ASCII letters, as used by str.lower(). -/
def ucPairs : List (Char × Char) :=
  [('A', 'a'), ('B', 'b'), ('C', 'c'), ('D', 'd'), ('E', 'e'), ('F', 'f'), ('G', 'g'),
   ('H', 'h'), ('I', 'i'), ('J', 'j'), ('K', 'k'), ('L', 'l'), ('M', 'm'), ('N', 'n'),
   ('O', 'o'), ('P', 'p'), ('Q', 'q'), ('R', 'r'), ('S', 's'), ('T', 't'), ('U', 'u'),
   ('V', 'v'), ('W', 'w'), ('X', 'x'), ('Y', 'y'), ('Z', 'z')]

/-- Lowercase a single character (ASCII). -/
def lowChar (c : Char) : Char :=
  match ucPairs.find? (fun p => p.1 == c) with
  | some p => p.2
  | none => c

/-- Model of str.strip() on a character list. -/
def stripL (l : List Char) : List Char :=
  ((l.dropWhile isWsChar).reverse.dropWhile isWsChar).reverse

/-- Model of str.strip(). -/
def pyStrip (s : String) : String := ⟨stripL s.data⟩

/-- Model of str.lower(). -/
def pyLower (s : String) : String := ⟨s.data.map lowChar⟩

/-- Substring test on character lists, model of the Python `in` operator on str. -/
def isSubL : List Char → List Char → Bool
  | n, [] => n.isEmpty
  | n, c :: t => n.isPrefixOf (c :: t) || isSubL n t

/-- Model of `sub in s` for strings. -/
def containsSub (sub s : String) : Bool := isSubL sub.data s.data

/-- Character membership in a string. -/
def hasChar (s : String) (c : Char) : Bool := s.data.contains c

/-- Numeric value of a decimal digit character, none for a non-digit. -/
def digitVal (c : Char) : Option Nat :=
  if c.isDigit then some (c.toNat - 48) else none

/-- Accumulating decimal parser: fails on the first non-digit character. -/
def parseDigitsFrom : Nat → List Char → Option Nat
  | acc, [] => some acc
  | acc, c :: t =>
    match digitVal c with
    | some d => parseDigitsFrom (acc * 10 + d) t
    | none => none

/-- Sign-and-digit parser on an already stripped character list: one
optional sign, then a nonempty run of decimal digits; anything else fails. -/
def pyIntCore : List Char → Option Int
  | [] => none
  | '-' :: t => if t.isEmpty then none else (parseDigitsFrom 0 t).map (fun n => -(n : Int))
  | '+' :: t => if t.isEmpty then none else (parseDigitsFrom 0 t).map (fun n => (n : Int))
  | l => (parseDigitsFrom 0 l).map (fun n => (n : Int))

/-- Model of Python int(str): surrounding whitespace allowed, one optional
sign, then a nonempty run of decimal digits; anything else fails. -/
def pyInt (s : String) : Option Int := pyIntCore (stripL s.data)

/-- Decimal digit character for a value below ten. -/
def digitChar : Nat → Char
  | 0 => '0'
  | 1 => '1'
  | 2 => '2'
  | 3 => '3'
  | 4 => '4'
  | 5 => '5'
  | 6 => '6'
  | 7 => '7'
  | 8 => '8'
  | _ => '9'

/-- Decimal representation of a natural number, most significant digit first. -/
def natToChars (n : Nat) : List Char :=
  if _h : n < 10 then [digitChar n]
  else natToChars (n / 10) ++ [digitChar (n % 10)]
termination_by n
decreasing_by exact Nat.div_lt_self (by omega) (by omega)

/-- Model of Python str(int). -/
def intChars (i : Int) : List Char :=
  if i < 0 then '-' :: natToChars i.natAbs else natToChars i.toNat

/-- A Python value as it flows through the cleaning pipeline: None, a string,
or an integer (the canonical outputs of the cleaners). -/
inductive PyVal where
  | none : PyVal
  | str : String → PyVal
  | int : Int → PyVal
deriving DecidableEq, Repr

/-- Model of Python str(value) for pipeline values. -/
def pyStr : PyVal → String
  | .none => "None"
  | .str s => s
  | .int i => ⟨intChars i⟩

/-- Model of Python truth-value test `not value` for pipeline values. -/
def pyFalsy : PyVal → Bool
  | .none => true
  | .str s => s == ""
  | .int i => i == 0

/-! The per-type cleaners of DataCleaningPipeline (src/immoeliza/pipelines.py).
Each cleaner receives the already stripped string value_str computed by
smart_clean and returns the canonical value. -/

/-- The literal list checked verbatim (case-sensitively) inside the numeric
cleaners: clean_area, clean_energy, clean_currency, clean_integer. -/
def unavailableLits : List String := ["(information not available)", "Not applicable", ""]

/-- The case-insensitive no-data literal list of clean_empty. -/
def emptyLits : List String :=
  ["(information not available)", "not applicable", "no certificate", "area info not available", ""]

/-- Characters matched by the regex class of digits, whitespace and comma
used by clean_area and clean_energy. -/
def isRunChar (c : Char) : Bool := c.isDigit || isWsChar c || c == ','

/-- First maximal run of characters from the digits-whitespace-comma class,
model of re.search over that class: none when no such character occurs. -/
def firstRun : List Char → Option (List Char)
  | [] => none
  | c :: t => if isRunChar c then some (c :: t.takeWhile isRunChar) else firstRun t

/-- Model of .replace(" ", "").replace(",", "") on the matched group. -/
def removeSpComma (l : List Char) : List Char :=
  l.filter (fun c => !(c == ' ' || c == ','))

/-- Model of DataCleaningPipeline.clean_binary: converts yes and no style
literals to one and zero, everything else to null. -/
def cleanBinary (value : String) : Option Int :=
  if value == "" then none
  else
    let v := pyLower (pyStrip value)
    if v == "yes" || v == "y" || v == "1" || v == "true" then some 1
    else if v == "no" || v == "n" || v == "0" || v == "false" then some 0
    else if v == "(information not available)" || v == "not applicable" then none
    else none

/-- Model of DataCleaningPipeline.clean_area: extract the first run of
digits, spaces and commas, drop spaces and commas, parse as an integer.
The float branch of the source tests for a decimal point inside the matched
group; the group is drawn from a character class without the point, so that
branch cannot produce a value (see firstRun_no_dot below) and is modelled
as the failure outcome. -/
def cleanArea (value : String) : Option Int :=
  if value == "" then none
  else
    let vs := pyStrip value
    if unavailableLits.contains vs then none
    else
      match firstRun vs.data with
      | some run =>
        let numberStr := removeSpComma run
        if numberStr.contains '.' then none
        else pyInt ⟨numberStr⟩
      | none => none

/-- Model of DataCleaningPipeline.clean_energy, textually the same
extraction as clean_area in the source. -/
def cleanEnergy (value : String) : Option Int :=
  if value == "" then none
  else
    let vs := pyStrip value
    if unavailableLits.contains vs then none
    else
      match firstRun vs.data with
      | some run =>
        let numberStr := removeSpComma run
        if numberStr.contains '.' then none
        else pyInt ⟨numberStr⟩
      | none => none

/-- Characters removed by the regex substitution of clean_currency:
the euro sign, the dollar sign and whitespace. -/
def isCurrencyStripChar (c : Char) : Bool := c == '€' || c == '$' || isWsChar c

/-- The remainder of a currency string after stripping symbols and whitespace. -/
def stripCurrency (l : List Char) : List Char := l.filter (fun c => !(isCurrencyStripChar c))

/-- Model of DataCleaningPipeline.clean_currency: strip currency symbols and
whitespace, parse the remainder as an integer, null on failure. -/
def cleanCurrency (value : String) : Option Int :=
  if value == "" then none
  else
    let vs := pyStrip value
    if unavailableLits.contains vs then none
    else pyInt ⟨stripCurrency vs.data⟩

/-- Model of DataCleaningPipeline.clean_integer: drop spaces and commas and
parse as an integer, null on failure. -/
def cleanInteger (value : String) : Option Int :=
  if value == "" then none
  else
    let vs := pyStrip value
    if unavailableLits.contains vs then none
    else pyInt ⟨removeSpComma vs.data⟩

/-- Model of DataCleaningPipeline.clean_empty as called by smart_clean: the
argument is the stripped string value_str, returned unchanged unless it is
empty or a no-data literal (case-insensitively), in which case null. -/
def cleanEmpty (value : String) : PyVal :=
  if value == "" then .none
  else
    let vs := pyStrip value
    if emptyLits.contains (pyLower vs) then .none
    else .str value

/-- Model of DataCleaningPipeline.looks_like_binary. -/
def binaryValues : List String := ["yes", "no", "y", "n", "true", "false", "0", "1"]

/-- Whether a value reads as a yes-no style literal. -/
def looksLikeBinary (s : String) : Bool := binaryValues.contains (pyStrip (pyLower s))

/-- The binary keyword list of smart_clean. -/
def binaryKeywords : List String :=
  ["furnished", "attic", "garage", "elevator", "vat", "leased",
   "water", "preemption", "cellar", "diningroom", "swimming_pool",
   "pool", "disabled", "sewer", "gas", "permission", "granted",
   "connection", "alarm", "parking"]

/-- Currency detection: euro or dollar sign in the value, or the field is
price or cadastral_income. -/
def isCurrencyTrigger (fl s : String) : Bool :=
  hasChar s '€' || hasChar s '$' || fl == "price" || fl == "cadastral_income"

/-- The explicit area field names of smart_clean. -/
def areaFieldNames : List String := ["garden", "terrace", "total_land_surface", "livable_surface"]

/-- Area detection: square-metre marker in the value, or surface in the
field name, or an explicit area field name. -/
def isAreaTrigger (fl s : String) : Bool :=
  containsSub "m²" s || containsSub "m2" s || containsSub "surface" fl ||
    areaFieldNames.contains fl

/-- Energy detection: kwh in the value, or energy or consumption in the field name. -/
def isEnergyTrigger (fl s : String) : Bool :=
  containsSub "kwh" (pyLower s) || containsSub "energy" fl || containsSub "consumption" fl

/-- The explicit integer field names of smart_clean. -/
def intFieldNames : List String := ["build_year", "postal_code", "year_of_construction"]

/-- Integer detection: the field starts with number underscore or is an
explicit integer field name. -/
def isIntTrigger (fl : String) : Bool :=
  "number_".data.isPrefixOf fl.data || intFieldNames.contains fl

/-- Binary detection: the value reads as yes-no, or the field name contains
a binary keyword. -/
def isBinaryTrigger (fl s : String) : Bool :=
  looksLikeBinary s || binaryKeywords.any (fun k => containsSub k fl)

/-- The semantic type smart_clean assigns to a field and value pair, in the
dispatch order of the source: the cleaning method selected is the
classification. -/
inductive CType where
  | noData : CType
  | currency : CType
  | area : CType
  | energy : CType
  | intCount : CType
  | boolean : CType
  | freeText : CType
deriving DecidableEq, Repr

/-- Classification implicit in DataCleaningPipeline.smart_clean: which
cleaner the dispatch selects for a field name and value. -/
def classify (fieldName : String) (value : PyVal) : CType :=
  if pyFalsy value then .noData
  else
    let s := pyStrip (pyStr value)
    let fl := pyLower fieldName
    if isCurrencyTrigger fl s then .currency
    else if isAreaTrigger fl s then .area
    else if isEnergyTrigger fl s then .energy
    else if isIntTrigger fl then .intCount
    else if isBinaryTrigger fl s then .boolean
    else .freeText

/-- Wrap a cleaner result back into a pipeline value. -/
def ofOptInt : Option Int → PyVal
  | some n => .int n
  | none => .none

/-- Model of DataCleaningPipeline.smart_clean: falsy values become null,
otherwise the stripped string is dispatched to the cleaner selected by the
content and field-name checks, in source order. -/
def smartClean (fieldName : String) (value : PyVal) : PyVal :=
  if pyFalsy value then .none
  else
    let s := pyStrip (pyStr value)
    let fl := pyLower fieldName
    if isCurrencyTrigger fl s then ofOptInt (cleanCurrency s)
    else if isAreaTrigger fl s then ofOptInt (cleanArea s)
    else if isEnergyTrigger fl s then ofOptInt (cleanEnergy s)
    else if isIntTrigger fl then ofOptInt (cleanInteger s)
    else if isBinaryTrigger fl s then ofOptInt (cleanBinary s)
    else cleanEmpty s

/-- Read a field from a record, null when the field is absent, as
ItemAdapter.get does. -/
def getField (r : List (String × PyVal)) (f : String) : PyVal :=
  match r.find? (fun p => p.1 == f) with
  | some p => p.2
  | none => .none

/-- Write a field on a record: update in place when present, append when
absent, as item assignment does on the underlying mapping. -/
def setField (r : List (String × PyVal)) (f : String) (v : PyVal) : List (String × PyVal) :=
  if r.any (fun p => p.1 == f) then r.map (fun p => if p.1 == f then (p.1, v) else p)
  else r ++ [(f, v)]

/-- Model of DataCleaningPipeline.process_item: for every name in
field_names (for a scrapy item, the declared fields of the item class),
read the field, clean it, and write it back. -/
def processItem (fieldNames : List String) (r : List (String × PyVal)) :
    List (String × PyVal) :=
  fieldNames.foldl (fun acc f => setField acc f (smartClean f (getField acc f))) r


/-! Dataframe model for src/clean_data.py and src/combine_csv.py.

A cell is an optional value (missing data is NaN in pandas); a row is an
association list from column name to cell, and a dataframe carries its
column order and its rows. Cell access through rowGet treats an absent
column as missing data, matching the behaviour of the aligned frames. -/

/-- A concrete cell value: a string or an integer, the shapes relevant to
the combination code. -/
inductive Val where
  | s : String → Val
  | i : Int → Val
deriving DecidableEq, Repr

/-- A cell: missing (NaN) or a value. -/
abbrev Cell := Option Val

/-- A dataframe row. -/
abbrev Row := List (String × Cell)

/-- A dataframe: ordered columns plus rows. -/
structure DF where
  cols : List String
  rows : List Row
deriving DecidableEq, Repr

/-- Cell lookup in a row; an absent column reads as missing data. -/
def rowGet (r : Row) (c : String) : Cell :=
  match r.find? (fun p => p.1 == c) with
  | some p => p.2
  | none => none

/-- The join key of a row: its property_id cell. -/
def rowKey (r : Row) : Cell := rowGet r "property_id"

/-- Whether some row of the list carries the given key, the membership test
behind the id sets of combine_csv_files. -/
def keyIn (rows : List Row) (k : Cell) : Bool := rows.any (fun r => rowKey r == k)

/-- Reindex a row to a column list, as df[all_columns] does. -/
def reindexRow (cols : List String) (r : Row) : Row := cols.map (fun c => (c, rowGet r c))

/-- Number of rows with a non-missing cell in the given column, the
notna().sum() count of the source. -/
def nnCount (rows : List Row) (c : String) : Nat :=
  (rows.filter (fun r => (rowGet r c).isSome)).length

/-- Lexicographic comparison of character lists by code point. -/
def charsLe : List Char → List Char → Bool
  | [], _ => true
  | _ :: _, [] => false
  | a :: as, b :: bs =>
    if a.toNat < b.toNat then true
    else if b.toNat < a.toNat then false
    else charsLe as bs

/-- Ordering of values used when pandas sorts a union index: integers
before strings, each compared within their own kind. -/
def valLe : Val → Val → Bool
  | .i a, .i b => a ≤ b
  | .i _, .s _ => true
  | .s _, .i _ => false
  | .s a, .s b => charsLe a.data b.data

/-- Ordering of cells for the sorted union index: missing data sorts last. -/
def cellLe : Cell → Cell → Bool
  | none, none => true
  | none, some _ => false
  | some _, none => true
  | some a, some b => valLe a b

/-- Stable descending sort by non-null count, the behaviour of Python
sorted with a count key and reverse=True. -/
def sortByCountDesc (l : List (String × Nat)) : List (String × Nat) :=
  List.insertionSort (fun p q => q.2 ≤ p.2) l

/-- Ascending sort of key cells, the sorted union index that pandas
produces when aligning two differently ordered indexes. -/
def sortKeysAsc (l : List Cell) : List Cell :=
  List.insertionSort (fun a b => cellLe a b = true) l

/-- The column order of the temporary concatenation of combine_csv_files:
the columns of A, followed by the columns present only in B in the order
ord1 in which Python happens to enumerate that set (set iteration order is
not determined by the inputs). The columns present only in A are likewise
appended to B in some set order, but both frames are immediately reindexed
to the same column list, so that second order cannot influence the result
and is not a parameter of the model. -/
def tempCols (A : DF) (ord1 : List String) : List String := A.cols ++ ord1

/-- The output schema of combine_csv_files: property_id first, then every
other column of the temporary concatenation sorted by descending non-null
count over the rows of both inputs, ties kept in concatenation order. -/
def schemaCols (A B : DF) (ord1 : List String) : List String :=
  let temp := tempCols A ord1
  let rows := A.rows ++ B.rows
  let base := (temp.filter (fun c => !(c == "property_id"))).map (fun c => (c, nnCount rows c))
  "property_id" :: (sortByCountDesc base).map (fun p => p.1)

/-- The first row carrying the given key, combined-first cell access:
missing when no such row or the row misses the column. -/
def getCellByKey (rows : List Row) (k : Cell) (c : String) : Cell :=
  match rows.find? (fun r => rowKey r == k) with
  | some r => rowGet r c
  | none => none

/-- The gap-filling cell rule of combine_first: the cell of the first
frame when present, otherwise the cell of the second frame. -/
def mergeCell (aCommon bCommon : List Row) (k : Cell) (c : String) : Cell :=
  match getCellByKey aCommon k c with
  | some v => some v
  | none => getCellByKey bCommon k c

/-- The merged common block: one row per key of the union index order,
tabulated over the output schema with the gap-filling rule. -/
def mergedRows (allCols : List String) (aCommon bCommon : List Row)
    (keyOrder : List Cell) : List Row :=
  keyOrder.map (fun k => allCols.map (fun c => (c, mergeCell aCommon bCommon k c)))

/-- The rows of a frame reindexed to the output schema. -/
def reRows (A : DF) (cs : List String) : List Row := A.rows.map (reindexRow cs)

/-- Rows of x whose key does not appear in y. -/
def uniqueRows (x y : List Row) : List Row := x.filter (fun r => !(keyIn y (rowKey r)))

/-- Rows of x whose key appears in y. -/
def commonRows (x y : List Row) : List Row := x.filter (fun r => keyIn y (rowKey r))

/-- The index order that aligning the two common frames produces: the
order of the first frame when both list the common keys identically,
otherwise the sorted union of the two key sequences. -/
def commonKeyOrder (ckA ckB : List Cell) : List Cell :=
  if ckA == ckB then ckA
  else sortKeysAsc (ckA ++ ckB.filter (fun k => !(ckA.contains k)))

/-- Core of combine_csv_files (src/clean_data.py, lines 36 to 117), from
the point where both frames are loaded: align columns, compute the
completeness-ordered schema, split rows into unique and common by key
membership of the other side, merge the common rows fieldwise with the
combine_first gap-filling rule (the value of A when present, otherwise the
value of B), and concatenate unique-to-A, unique-to-B and merged rows.
The merged block is ordered by the union of the two common-key index
orders: the index order of A when B lists the common keys identically,
otherwise the sorted union, which is what pandas aligning produces. -/
def combineCore (A B : DF) (ord1 : List String) : DF :=
  let allCols := schemaCols A B ord1
  let a2 := reRows A allCols
  let b2 := reRows B allCols
  ⟨allCols,
    uniqueRows a2 b2 ++ uniqueRows b2 a2 ++
      mergedRows allCols (commonRows a2 b2) (commonRows b2 a2)
        (commonKeyOrder ((commonRows a2 b2).map rowKey) ((commonRows b2 a2).map rowKey))⟩

/-- Recursive worker of the deduplication: keep a row when its key cell has
not been seen, remembering seen keys; missing keys hash alike in pandas and
are deduplicated among themselves like any other key value. -/
def dropDupGo (key : String) : List Cell → List Row → List Row
  | _, [] => []
  | seen, r :: t =>
    if seen.contains (rowGet r key) then dropDupGo key seen t
    else r :: dropDupGo key (rowGet r key :: seen) t

/-- Model of DataFrame.drop_duplicates with keep=first on a key column, as
called by combine_csv_files in src/combine_csv.py line 42. -/
def dropDupFirst (key : String) (rows : List Row) : List Row := dropDupGo key [] rows

/-- The concatenate-then-deduplicate combination of src/combine_csv.py:
rows of the first file, then rows of the second, deduplicated on
property_id keeping the first occurrence. -/
def concatDedup (rows1 rows2 : List Row) : List Row :=
  dropDupFirst "property_id" (rows1 ++ rows2)


/-! Lemmas about the string primitives. -/

theorem dropWhile_idem (p : α → Bool) (l : List α) :
    (l.dropWhile p).dropWhile p = l.dropWhile p := by
  induction l with
  | nil => rfl
  | cons a t ih =>
    by_cases h : p a
    · simp [List.dropWhile_cons, h, ih]
    · simp [List.dropWhile_cons, h]

theorem head_dropWhile (p : α → Bool) {l t : List α} {a : α}
    (h : l.dropWhile p = a :: t) : p a = false := by
  induction l with
  | nil => simp at h
  | cons b u ih =>
    by_cases hb : p b
    · simp [List.dropWhile_cons, hb] at h
      exact ih h
    · simp [List.dropWhile_cons, hb] at h
      rcases h with ⟨rfl, rfl⟩
      simp [hb]

theorem stripL_sublist (l : List Char) : (stripL l).Sublist l := by
  unfold stripL
  have h1 : ((l.dropWhile isWsChar).reverse.dropWhile isWsChar).Sublist
      (l.dropWhile isWsChar).reverse := List.dropWhile_sublist _
  have h2 := List.reverse_sublist.mpr h1
  rw [List.reverse_reverse] at h2
  exact h2.trans (List.dropWhile_sublist _)

theorem mem_stripL {c : Char} {l : List Char} (h : c ∈ stripL l) : c ∈ l :=
  (stripL_sublist l).subset h

theorem mem_dropWhile_of_not {p : α → Bool} {c : α} {l : List α}
    (hc : c ∈ l) (hp : p c = false) : c ∈ l.dropWhile p := by
  induction l with
  | nil => simp at hc
  | cons a t ih =>
    by_cases ha : p a
    · simp [List.dropWhile_cons, ha]
      rcases List.mem_cons.mp hc with rfl | ht
      · simp [ha] at hp
      · exact ih ht
    · simpa [List.dropWhile_cons, ha] using hc

theorem mem_stripL_of_not_ws {c : Char} {l : List Char}
    (hc : c ∈ l) (hw : isWsChar c = false) : c ∈ stripL l := by
  unfold stripL
  rw [List.mem_reverse]
  apply mem_dropWhile_of_not _ hw
  rw [List.mem_reverse]
  exact mem_dropWhile_of_not hc hw

theorem dropWhile_eq_self_of_all {p : α → Bool} {l : List α}
    (h : ∀ c ∈ l, p c = false) : l.dropWhile p = l := by
  cases l with
  | nil => rfl
  | cons a t => simp [List.dropWhile_cons, h a (List.mem_cons_self a t)]

theorem stripL_eq_self_of_all {l : List Char}
    (h : ∀ c ∈ l, isWsChar c = false) : stripL l = l := by
  unfold stripL
  rw [dropWhile_eq_self_of_all h, dropWhile_eq_self_of_all, List.reverse_reverse]
  intro c hc
  exact h c (List.mem_reverse.mp hc)

theorem stripL_idem (l : List Char) : stripL (stripL l) = stripL l := by
  unfold stripL
  set p := isWsChar
  set u := l.dropWhile p with hu
  have huhead : u.dropWhile p = u := dropWhile_idem p l
  set v := u.reverse.dropWhile p with hv
  have hvv : v.dropWhile p = v := by
    rw [hv]; exact dropWhile_idem p u.reverse
  -- the stripped list is v.reverse; strip it again
  show ((v.reverse.dropWhile p).reverse.dropWhile p).reverse = v.reverse
  have hfront : v.reverse.dropWhile p = v.reverse := by
    cases hw : v.reverse with
    | nil => rfl
    | cons a t =>
      -- v is a suffix of u.reverse, so v.reverse is a prefix of u, and its
      -- head a is then the head of u; u has no whitespace head.
      have hpref : v.reverse <+: u := by
        have hsuffix : v <:+ u.reverse := by rw [hv]; exact List.dropWhile_suffix p
        rcases hsuffix with ⟨w0, hw0⟩
        refine ⟨w0.reverse, ?_⟩
        have := congrArg List.reverse hw0
        simpa using this
      rcases hpref with ⟨w0, hw0⟩
      rw [hw] at hw0
      have hu2 : u = a :: (t ++ w0) := by rw [← hw0]; simp
      have hpa : p a = false := by
        cases hpa0 : p a
        · rfl
        · exfalso
          have h3 : u.dropWhile p = (t ++ w0).dropWhile p := by
            rw [hu2, List.dropWhile_cons, hpa0]
            simp
          rw [huhead] at h3
          have h5 : u.length = (t ++ w0).length + 1 := by rw [hu2]; simp
          have h6 : u.length ≤ (t ++ w0).length := by
            rw [h3]
            exact (List.dropWhile_sublist p).length_le
          omega
      rw [List.dropWhile_cons, hpa]
      simp
  rw [hfront, List.reverse_reverse, hvv]

theorem pyStrip_idem (s : String) : pyStrip (pyStrip s) = pyStrip s := by
  unfold pyStrip
  exact congrArg String.mk (stripL_idem s.data)

theorem data_pyStrip (s : String) : (pyStrip s).data = stripL s.data := rfl

theorem data_pyLower (s : String) : (pyLower s).data = s.data.map lowChar := rfl

/-! Character-level transport facts for lowercasing. -/

theorem lowChar_cases (c : Char) : lowChar c = c ∨ (c, lowChar c) ∈ ucPairs := by
  unfold lowChar
  cases hf : ucPairs.find? (fun p => p.1 == c) with
  | none => exact Or.inl rfl
  | some p =>
    right
    have hmem := List.mem_of_find?_eq_some hf
    have hp := List.find?_some hf
    have : p.1 = c := by simpa using hp
    have : (c, p.2) = p := by
      rw [← this]
    rw [this]
    exact hmem

theorem lowChar_isDigit (c : Char) : (lowChar c).isDigit = c.isDigit := by
  rcases lowChar_cases c with h | h
  · rw [h]
  · have : ∀ q ∈ ucPairs, (q.2.isDigit = q.1.isDigit) := by decide
    have := this _ h
    simpa using this

theorem lowChar_isWs (c : Char) : isWsChar (lowChar c) = isWsChar c := by
  rcases lowChar_cases c with h | h
  · rw [h]
  · have : ∀ q ∈ ucPairs, (isWsChar q.2 = isWsChar q.1) := by decide
    have := this _ h
    simpa using this

theorem lowChar_of_isDigit {c : Char} (h : c.isDigit = true) : lowChar c = c := by
  rcases lowChar_cases c with h2 | h2
  · exact h2
  · exfalso
    have : ∀ q ∈ ucPairs, q.1.isDigit = false := by decide
    have := this _ h2
    simp at this
    rw [this] at h
    exact absurd h (by decide)

theorem lowChar_of_isWs {c : Char} (h : isWsChar c = true) : lowChar c = c := by
  rcases lowChar_cases c with h2 | h2
  · exact h2
  · exfalso
    have : ∀ q ∈ ucPairs, isWsChar q.1 = false := by decide
    have := this _ h2
    simp at this
    rw [this] at h
    exact absurd h (by decide)

/-- Each character of a string maps into the lowered string. -/
theorem lowChar_mem_of_lower_eq {s lit : String} (h : pyLower s = lit) {c : Char}
    (hc : c ∈ s.data) : lowChar c ∈ lit.data := by
  have : (pyLower s).data = lit.data := by rw [h]
  rw [data_pyLower] at this
  rw [← this]
  exact List.mem_map_of_mem lowChar hc

/-! Substring facts. -/

theorem isSubL_subset {n h : List Char} (hs : isSubL n h = true) : ∀ c ∈ n, c ∈ h := by
  induction h with
  | nil =>
    intro c hc
    unfold isSubL at hs
    rw [List.isEmpty_iff] at hs
    rw [hs] at hc
    simp at hc
  | cons a t ih =>
    intro c hc
    unfold isSubL at hs
    rcases Bool.or_eq_true_iff.mp hs with hpre | hrest
    · exact (List.isPrefixOf_iff_prefix.mp hpre).subset hc
    · exact List.mem_cons_of_mem a (ih hrest c hc)

theorem containsSub_false_of_missing {sub s : String} {c : Char} (hc : c ∈ sub.data)
    (hmiss : c ∉ s.data) : containsSub sub s = false := by
  cases h : containsSub sub s with
  | false => rfl
  | true =>
    exact absurd (isSubL_subset h c hc) hmiss

/-! Digit-string facts. -/

theorem digitChar_isDigit (d : Nat) : (digitChar d).isDigit = true := by
  rcases d with _ | _ | _ | _ | _ | _ | _ | _ | _ | d <;> rfl

theorem digitVal_digitChar {d : Nat} (h : d < 10) : digitVal (digitChar d) = some d := by
  rcases d with _ | _ | _ | _ | _ | _ | _ | _ | _ | d
  all_goals first
    | decide
    | (rcases d with _ | d
       · decide
       · omega)

theorem natToChars_all_digit (n : Nat) : ∀ c ∈ natToChars n, c.isDigit = true := by
  induction n using Nat.strong_induction_on with
  | _ n ih =>
    intro c hc
    rw [natToChars] at hc
    by_cases h : n < 10
    · simp [h] at hc
      rw [hc]
      exact digitChar_isDigit n
    · simp [h] at hc
      rcases hc with hc | hc
      · exact ih (n / 10) (Nat.div_lt_self (by omega) (by omega)) c hc
      · rw [hc]
        exact digitChar_isDigit (n % 10)

theorem natToChars_ne_nil (n : Nat) : natToChars n ≠ [] := by
  rw [natToChars]
  by_cases h : n < 10
  · simp [h]
  · simp [h]

theorem parseDigitsFrom_append (acc : Nat) (l1 l2 : List Char) :
    parseDigitsFrom acc (l1 ++ l2) =
      match parseDigitsFrom acc l1 with
      | some m => parseDigitsFrom m l2
      | none => none := by
  induction l1 generalizing acc with
  | nil => rfl
  | cons c t ih =>
    have hstep : ∀ (a : Nat) (l : List Char), parseDigitsFrom a (c :: l) =
        match digitVal c with
        | some d => parseDigitsFrom (a * 10 + d) l
        | none => none := fun a l => rfl
    rw [List.cons_append, hstep, hstep]
    cases hv : digitVal c with
    | some d => exact ih (acc * 10 + d)
    | none => rfl

theorem parseDigitsFrom_natToChars (n : Nat) : ∀ acc,
    parseDigitsFrom acc (natToChars n) = some (acc * 10 ^ (natToChars n).length + n) := by
  induction n using Nat.strong_induction_on with
  | _ n ih =>
    intro acc
    rw [natToChars]
    by_cases h : n < 10
    · simp only [h, dite_true]
      unfold parseDigitsFrom
      rw [digitVal_digitChar h]
      unfold parseDigitsFrom
      simp
    · simp only [h, dite_false]
      rw [parseDigitsFrom_append]
      rw [ih (n / 10) (Nat.div_lt_self (by omega) (by omega)) acc]
      unfold parseDigitsFrom
      rw [digitVal_digitChar (Nat.mod_lt n (by omega))]
      unfold parseDigitsFrom
      simp only [List.length_append, List.length_singleton]
      congr 1
      have hmod : n % 10 + 10 * (n / 10) = n := Nat.mod_add_div n 10
      ring_nf
      omega

theorem parseDigitsFrom_zero_natToChars (n : Nat) :
    parseDigitsFrom 0 (natToChars n) = some n := by
  rw [parseDigitsFrom_natToChars]
  simp

theorem parseDigitsFrom_none_of_bad {l : List Char} {c : Char} (hc : c ∈ l)
    (hd : c.isDigit = false) : ∀ acc, parseDigitsFrom acc l = none := by
  induction l with
  | nil => simp at hc
  | cons a t ih =>
    intro acc
    unfold parseDigitsFrom
    rcases List.mem_cons.mp hc with rfl | ht
    · unfold digitVal
      rw [hd]
      simp
    · cases hv : digitVal a with
      | some d => exact ih ht _
      | none => rfl

theorem not_ws_of_digit {c : Char} (h : c.isDigit = true) : isWsChar c = false := by
  cases hw : isWsChar c
  · rfl
  · exfalso
    unfold isWsChar at hw
    simp only [Bool.or_eq_true, beq_iff_eq, or_assoc] at hw
    rcases hw with rfl | rfl | rfl | rfl | rfl | rfl | rfl <;> exact absurd h (by decide)

theorem ne_of_digit {c x : Char} (h : c.isDigit = true) (hx : x.isDigit = false) : c ≠ x := by
  intro he
  rw [he] at h
  rw [h] at hx
  exact absurd hx (by decide)

theorem pyIntCore_none_of_bad {l : List Char} {c : Char} (hc : c ∈ l)
    (hd : c.isDigit = false) (hm : c ≠ '-') (hp : c ≠ '+') : pyIntCore l = none := by
  unfold pyIntCore
  split
  · rfl
  · rename_i t
    have hct : c ∈ t := by
      rcases List.mem_cons.mp hc with rfl | h
      · exact absurd rfl hm
      · exact h
    rw [parseDigitsFrom_none_of_bad hct hd 0]
    split <;> rfl
  · rename_i t
    have hct : c ∈ t := by
      rcases List.mem_cons.mp hc with rfl | h
      · exact absurd rfl hp
      · exact h
    rw [parseDigitsFrom_none_of_bad hct hd 0]
    split <;> rfl
  · rw [parseDigitsFrom_none_of_bad hc hd 0]
    rfl

theorem pyIntCore_all_digit {l : List Char} (hne : l ≠ [])
    (hall : ∀ c ∈ l, c.isDigit = true) :
    pyIntCore l = (parseDigitsFrom 0 l).map (fun n => (n : Int)) := by
  unfold pyIntCore
  split
  · exact absurd rfl hne
  · rename_i t
    exfalso
    have := hall '-' (List.mem_cons_self _ _)
    exact absurd this (by decide)
  · rename_i t
    exfalso
    have := hall '+' (List.mem_cons_self _ _)
    exact absurd this (by decide)
  · rfl

theorem pyInt_natToChars (n : Nat) : pyInt ⟨natToChars n⟩ = some (n : Int) := by
  unfold pyInt
  have hs : stripL (natToChars n) = natToChars n := by
    apply stripL_eq_self_of_all
    intro c hc
    exact not_ws_of_digit (natToChars_all_digit n c hc)
  rw [show (String.mk (natToChars n)).data = natToChars n from rfl, hs]
  rw [pyIntCore_all_digit (natToChars_ne_nil n) (natToChars_all_digit n)]
  rw [parseDigitsFrom_zero_natToChars]
  rfl

/-! Facts about the regex run extraction. -/

theorem firstRun_none_of_no_runchar {l : List Char}
    (h : ∀ c ∈ l, isRunChar c = false) : firstRun l = none := by
  induction l with
  | nil => rfl
  | cons a t ih =>
    unfold firstRun
    rw [h a (List.mem_cons_self _ _)]
    simp only [Bool.false_eq_true, if_false]
    exact ih (fun c hc => h c (List.mem_cons_of_mem a hc))

theorem firstRun_subset {l run : List Char} (h : firstRun l = some run) :
    ∀ c ∈ run, c ∈ l ∧ isRunChar c = true := by
  induction l with
  | nil => simp [firstRun] at h
  | cons a t ih =>
    unfold firstRun at h
    by_cases ha : isRunChar a
    · rw [if_pos ha] at h
      intro c hc
      have hrun : run = a :: t.takeWhile isRunChar := by
        injection h with h2
        exact h2.symm
      rw [hrun] at hc
      rcases List.mem_cons.mp hc with rfl | hc2
      · exact ⟨List.mem_cons_self _ _, ha⟩
      · refine ⟨List.mem_cons_of_mem a ((List.takeWhile_prefix isRunChar).subset hc2), ?_⟩
        exact List.mem_takeWhile_imp hc2
    · rw [if_neg ha] at h
      intro c hc
      rcases ih h c hc with ⟨h1, h2⟩
      exact ⟨List.mem_cons_of_mem a h1, h2⟩

theorem firstRun_no_dot {l run : List Char} (h : firstRun l = some run) : '.' ∉ run := by
  intro hdot
  have := (firstRun_subset h '.' hdot).2
  exact absurd this (by decide)

theorem firstRun_all {l : List Char} (hne : l ≠ [])
    (hall : ∀ c ∈ l, isRunChar c = true) : firstRun l = some l := by
  cases l with
  | nil => exact absurd rfl hne
  | cons a t =>
    unfold firstRun
    rw [if_pos (hall a (List.mem_cons_self _ _))]
    congr 1
    congr 1
    exact List.takeWhile_eq_self_iff.mpr (fun c hc => hall c (List.mem_cons_of_mem a hc))

theorem removeSpComma_eq_self {l : List Char} (h : ∀ c ∈ l, c.isDigit = true) :
    removeSpComma l = l := by
  unfold removeSpComma
  apply List.filter_eq_self.mpr
  intro c hc
  have hd := h c hc
  have h1 : c ≠ ' ' := ne_of_digit hd (by decide)
  have h2 : c ≠ ',' := ne_of_digit hd (by decide)
  simp [h1, h2]

theorem stripCurrency_eq_self {l : List Char} (h : ∀ c ∈ l, c.isDigit = true) :
    stripCurrency l = l := by
  unfold stripCurrency
  apply List.filter_eq_self.mpr
  intro c hc
  have hd := h c hc
  have h1 : c ≠ '€' := ne_of_digit hd (by decide)
  have h2 : c ≠ '$' := ne_of_digit hd (by decide)
  unfold isCurrencyStripChar
  simp [h1, h2, not_ws_of_digit hd]

theorem mem_stripCurrency_of {c : Char} {l : List Char} (hc : c ∈ l)
    (h : isCurrencyStripChar c = false) : c ∈ stripCurrency l := by
  unfold stripCurrency
  rw [List.mem_filter]
  exact ⟨hc, by simp [h]⟩

theorem mem_of_mem_stripCurrency {c : Char} {l : List Char}
    (hc : c ∈ stripCurrency l) : c ∈ l := by
  unfold stripCurrency at hc
  exact (List.mem_filter.mp hc).1

/-! Character transport helpers for the literal arguments. -/

theorem ne_of_lowChar {c : Char} {L : List Char} (hc : lowChar c ∈ L) (x : Char)
    (hx : lowChar x ∉ L) : c ≠ x := fun he => hx (he ▸ hc)

theorem lowChar_to_space {c : Char} (h : lowChar c = ' ') : c = ' ' := by
  rcases lowChar_cases c with h2 | h2
  · rw [← h2]
    exact h
  · have hall : ∀ q ∈ ucPairs, q.2 ≠ ' ' := by decide
    exact absurd h (hall _ h2)

theorem str_data_eq_nil {u : String} (h : u.data = []) : u = "" := by
  cases u with
  | mk d =>
    cases h
    rfl

theorem beq_empty_false {u : String} (h : u.data ≠ []) : (u == "") = false := by
  cases hb : u == ""
  · rfl
  · exfalso
    have : u = "" := by
      have := hb
      rwa [beq_iff_eq] at this
    rw [this] at h
    exact h rfl

/-! Each cleaner maps a value whose characters are letter-like (as in the
no-data literals or the yes-no words) to null. -/

theorem cleanCurrency_none_chars {u : String} (hstrip : pyStrip u = u)
    {c0 : Char} (hc0 : c0 ∈ u.data) (hd : c0.isDigit = false)
    (hws : isWsChar c0 = false) (he : c0 ≠ '€') (hdl : c0 ≠ '$')
    (hm : c0 ≠ '-') (hp : c0 ≠ '+') : cleanCurrency u = none := by
  have hne : u.data ≠ [] := fun h => by rw [h] at hc0; simp at hc0
  unfold cleanCurrency
  rw [beq_empty_false hne]
  simp only [Bool.false_eq_true, if_false, hstrip]
  by_cases hcon : unavailableLits.contains u = true
  · rw [if_pos hcon]
  · rw [if_neg hcon]
    have hmem : c0 ∈ stripCurrency u.data := by
      apply mem_stripCurrency_of hc0
      unfold isCurrencyStripChar
      simp [he, hdl, hws]
    unfold pyInt
    apply pyIntCore_none_of_bad _ hd hm hp
    exact mem_stripL_of_not_ws hmem hws

theorem cleanInteger_none_chars {u : String} (hstrip : pyStrip u = u)
    {c0 : Char} (hc0 : c0 ∈ u.data) (hd : c0.isDigit = false)
    (hws : isWsChar c0 = false) (hsp : c0 ≠ ' ') (hcm : c0 ≠ ',')
    (hm : c0 ≠ '-') (hp : c0 ≠ '+') : cleanInteger u = none := by
  have hne : u.data ≠ [] := fun h => by rw [h] at hc0; simp at hc0
  unfold cleanInteger
  rw [beq_empty_false hne]
  simp only [Bool.false_eq_true, if_false, hstrip]
  by_cases hcon : unavailableLits.contains u = true
  · rw [if_pos hcon]
  · rw [if_neg hcon]
    have hmem : c0 ∈ removeSpComma u.data := by
      unfold removeSpComma
      rw [List.mem_filter]
      exact ⟨hc0, by simp [hsp, hcm]⟩
    unfold pyInt
    apply pyIntCore_none_of_bad _ hd hm hp
    exact mem_stripL_of_not_ws hmem hws

theorem cleanArea_none_chars {u : String} (hstrip : pyStrip u = u)
    (hchars : ∀ c ∈ u.data, c.isDigit = false ∧ c ≠ ',' ∧ (isWsChar c = true → c = ' ')) :
    cleanArea u = none := by
  by_cases hne : u.data = []
  · have : u = "" := str_data_eq_nil hne
    rw [this]
    rfl
  · unfold cleanArea
    rw [beq_empty_false hne]
    simp only [Bool.false_eq_true, if_false, hstrip]
    by_cases hcon : unavailableLits.contains u = true
    · rw [if_pos hcon]
    · rw [if_neg hcon]
      cases hr : firstRun u.data with
      | none => rfl
      | some run =>
        have hrun : ∀ c ∈ run, c = ' ' := by
          intro c hc
          rcases firstRun_subset hr c hc with ⟨hmem, hrc⟩
          rcases hchars c hmem with ⟨hd, hcm, hwsp⟩
          unfold isRunChar at hrc
          rcases Bool.or_eq_true_iff.mp hrc with h1 | h2
          · rcases Bool.or_eq_true_iff.mp h1 with h3 | h4
            · rw [hd] at h3
              exact absurd h3 (by decide)
            · exact hwsp h4
          · rw [beq_iff_eq] at h2
            exact absurd h2 hcm
        have hremove : removeSpComma run = [] := by
          unfold removeSpComma
          rw [List.filter_eq_nil_iff]
          intro c hc
          rw [hrun c hc]
          decide
        show (if (removeSpComma run).contains '.' = true then none
              else pyInt ⟨removeSpComma run⟩) = none
        rw [hremove]
        rfl

theorem cleanEnergy_none_chars {u : String} (hstrip : pyStrip u = u)
    (hchars : ∀ c ∈ u.data, c.isDigit = false ∧ c ≠ ',' ∧ (isWsChar c = true → c = ' ')) :
    cleanEnergy u = none := by
  by_cases hne : u.data = []
  · have : u = "" := str_data_eq_nil hne
    rw [this]
    rfl
  · unfold cleanEnergy
    rw [beq_empty_false hne]
    simp only [Bool.false_eq_true, if_false, hstrip]
    by_cases hcon : unavailableLits.contains u = true
    · rw [if_pos hcon]
    · rw [if_neg hcon]
      cases hr : firstRun u.data with
      | none => rfl
      | some run =>
        have hrun : ∀ c ∈ run, c = ' ' := by
          intro c hc
          rcases firstRun_subset hr c hc with ⟨hmem, hrc⟩
          rcases hchars c hmem with ⟨hd, hcm, hwsp⟩
          unfold isRunChar at hrc
          rcases Bool.or_eq_true_iff.mp hrc with h1 | h2
          · rcases Bool.or_eq_true_iff.mp h1 with h3 | h4
            · rw [hd] at h3
              exact absurd h3 (by decide)
            · exact hwsp h4
          · rw [beq_iff_eq] at h2
            exact absurd h2 hcm
        have hremove : removeSpComma run = [] := by
          unfold removeSpComma
          rw [List.filter_eq_nil_iff]
          intro c hc
          rw [hrun c hc]
          decide
        show (if (removeSpComma run).contains '.' = true then none
              else pyInt ⟨removeSpComma run⟩) = none
        rw [hremove]
        rfl

theorem cleanBinary_none_of_not_lit {u : String}
    (h1 : (pyLower (pyStrip u) == "yes" || pyLower (pyStrip u) == "y" ||
           pyLower (pyStrip u) == "1" || pyLower (pyStrip u) == "true") = false)
    (h2 : (pyLower (pyStrip u) == "no" || pyLower (pyStrip u) == "n" ||
           pyLower (pyStrip u) == "0" || pyLower (pyStrip u) == "false") = false) :
    cleanBinary u = none := by
  unfold cleanBinary
  by_cases hne : u == ""
  · rw [if_pos hne]
  · simp only [hne, Bool.false_eq_true, if_false]
    rw [h1, h2]
    simp

theorem cleanEmpty_none_of_lit {u : String} (hne : u.data ≠ [])
    (h : pyLower (pyStrip u) ∈ emptyLits) : cleanEmpty u = PyVal.none := by
  unfold cleanEmpty
  rw [beq_empty_false hne]
  simp only [Bool.false_eq_true, if_false]
  rw [if_pos]
  exact List.elem_eq_true_of_mem h

/-- All cleaners map a string whose lowercase form is a no-data literal to
null, whatever cleaner the dispatch happens to pick. -/
theorem cleaners_none_aux {u lit : String} (hl : pyLower u = lit) (hstrip : pyStrip u = u)
    (hnd : ∀ x ∈ lit.data, x.isDigit = false)
    (hwsl : ∀ x ∈ lit.data, isWsChar x = true → x = ' ')
    (hcm : ',' ∉ lit.data)
    (hn : 'n' ∈ lit.data)
    (hb1 : (lit == "yes" || lit == "y" || lit == "1" || lit == "true") = false)
    (hb2 : (lit == "no" || lit == "n" || lit == "0" || lit == "false") = false)
    (hle : lit ∈ emptyLits) :
    cleanCurrency u = none ∧ cleanArea u = none ∧ cleanEnergy u = none ∧
    cleanInteger u = none ∧ cleanBinary u = none ∧ cleanEmpty u = PyVal.none := by
  have hmap : ∀ c ∈ u.data, lowChar c ∈ lit.data := fun c hc =>
    lowChar_mem_of_lower_eq hl hc
  have hdig : ∀ c ∈ u.data, c.isDigit = false := by
    intro c hc
    rw [← lowChar_isDigit]
    exact hnd _ (hmap c hc)
  have hwsp : ∀ c ∈ u.data, isWsChar c = true → c = ' ' := by
    intro c hc hw
    apply lowChar_to_space
    apply hwsl _ (hmap c hc)
    rw [lowChar_isWs]
    exact hw
  have hcomma : ∀ c ∈ u.data, c ≠ ',' := by
    intro c hc
    apply ne_of_lowChar (hmap c hc)
    rw [show lowChar ',' = ',' from rfl]
    exact hcm
  -- witness character whose lowercase form is the letter n
  have hw : 'n' ∈ u.data.map lowChar := by
    have : (pyLower u).data = lit.data := by rw [hl]
    rw [data_pyLower] at this
    rw [this]
    exact hn
  rcases List.mem_map.mp hw with ⟨c0, hc0m, hc0l⟩
  have hc0d : c0.isDigit = false := hdig c0 hc0m
  have hc0w : isWsChar c0 = false := by
    rw [← lowChar_isWs, hc0l]
    decide
  have hc0ne : ∀ x : Char, lowChar x ≠ 'n' → c0 ≠ x := by
    intro x hx he
    rw [he] at hc0l
    exact hx hc0l
  have hune : u.data ≠ [] := fun h => by rw [h] at hc0m; simp at hc0m
  refine ⟨?_, ?_, ?_, ?_, ?_, ?_⟩
  · exact cleanCurrency_none_chars hstrip hc0m hc0d hc0w
      (hc0ne '€' (by decide)) (hc0ne '$' (by decide))
      (hc0ne '-' (by decide)) (hc0ne '+' (by decide))
  · exact cleanArea_none_chars hstrip
      (fun c hc => ⟨hdig c hc, hcomma c hc, hwsp c hc⟩)
  · exact cleanEnergy_none_chars hstrip
      (fun c hc => ⟨hdig c hc, hcomma c hc, hwsp c hc⟩)
  · exact cleanInteger_none_chars hstrip hc0m hc0d hc0w
      (hc0ne ' ' (by decide)) (hc0ne ',' (by decide))
      (hc0ne '-' (by decide)) (hc0ne '+' (by decide))
  · apply cleanBinary_none_of_not_lit
    · rw [hstrip, hl]
      exact hb1
    · rw [hstrip, hl]
      exact hb2
  · apply cleanEmpty_none_of_lit hune
    rw [hstrip, hl]
    exact hle

/-- The five no-data literal cases, plus the empty string. -/
theorem cleaners_none_of_lit {u : String} (hstrip : pyStrip u = u)
    (hlit : pyLower u ∈ emptyLits) :
    cleanCurrency u = none ∧ cleanArea u = none ∧ cleanEnergy u = none ∧
    cleanInteger u = none ∧ cleanBinary u = none ∧ cleanEmpty u = PyVal.none := by
  have hcases : pyLower u = "(information not available)" ∨ pyLower u = "not applicable" ∨
      pyLower u = "no certificate" ∨ pyLower u = "area info not available" ∨
      pyLower u = "" := by
    simpa [emptyLits] using hlit
  rcases hcases with h | h | h | h | h
  · exact cleaners_none_aux h hstrip (by decide) (by decide) (by decide) (by decide)
      (by decide) (by decide) (by decide)
  · exact cleaners_none_aux h hstrip (by decide) (by decide) (by decide) (by decide)
      (by decide) (by decide) (by decide)
  · exact cleaners_none_aux h hstrip (by decide) (by decide) (by decide) (by decide)
      (by decide) (by decide) (by decide)
  · exact cleaners_none_aux h hstrip (by decide) (by decide) (by decide) (by decide)
      (by decide) (by decide) (by decide)
  · have hdata : u.data = [] := by
      have : (pyLower u).data = ([] : List Char) := by rw [h]
      rw [data_pyLower] at this
      exact List.map_eq_nil_iff.mp this
    have hu : u = "" := str_data_eq_nil hdata
    rw [hu]
    refine ⟨rfl, rfl, rfl, rfl, rfl, rfl⟩

/-- Whatever branch smart_clean dispatches to, a no-data literal value
comes out null. -/
theorem smartClean_none_of_lit (f : String) {w : String}
    (hlit : pyLower (pyStrip w) ∈ emptyLits) : smartClean f (PyVal.str w) = PyVal.none := by
  by_cases hfw : pyFalsy (PyVal.str w) = true
  · unfold smartClean
    rw [if_pos hfw]
  · have hu : pyStrip (pyStr (PyVal.str w)) = pyStrip w := rfl
    have hstrip : pyStrip (pyStrip w) = pyStrip w := pyStrip_idem w
    rcases cleaners_none_of_lit hstrip hlit with ⟨h1, h2, h3, h4, h5, h6⟩
    unfold smartClean
    rw [if_neg hfw]
    simp only [pyStr]
    rw [show pyStrip w = pyStrip w from rfl]
    simp only [h1, h2, h3, h4, h5, h6, ofOptInt]
    simp only [ite_self]

/-- C2 counterexample: the value "not applicable" on the field price is
dispatched to the currency cleaner, so its classification is Currency and
not NoData, refuting the classification half of the claim (the normalized
result is still null). -/
theorem claim_C2_counterexample :
    classify "price" (PyVal.str "not applicable") = CType.currency ∧
    CType.currency ≠ CType.noData ∧
    smartClean "price" (PyVal.str "not applicable") = PyVal.none := by
  refine ⟨by decide, by decide, by decide⟩

/-- C2 (amended): a null or empty (falsy) value is classified NoData and
cleans to null for every field name; a value that is a no-data literal in
any casing cleans to null for every field name, although its
classification may be a typed class such as Currency when a field-name or
content signal fires first. -/
theorem claim_C2_amended (f : String) (v : PyVal) :
    (pyFalsy v = true → classify f v = CType.noData ∧ smartClean f v = PyVal.none) ∧
    (∀ w : String, v = PyVal.str w → pyLower (pyStrip w) ∈ emptyLits →
      smartClean f v = PyVal.none) := by
  constructor
  · intro h
    constructor
    · unfold classify
      rw [if_pos h]
    · unfold smartClean
      rw [if_pos h]
  · rintro w rfl hlit
    exact smartClean_none_of_lit f hlit

/-- C2 witness: the amended theorem applied to the field price with the
no-data literal "No Certificate" and to the null value. -/
theorem claim_C2_witness :
    smartClean "price" (PyVal.str "No Certificate") = PyVal.none ∧
    classify "municipality" PyVal.none = CType.noData := by
  constructor
  · exact (claim_C2_amended "price" (PyVal.str "No Certificate")).2
      "No Certificate" rfl (by decide)
  · exact ((claim_C2_amended "municipality" PyVal.none).1 rfl).1

/-- Character facts for the yes-no literals used by C10. -/
theorem c10_chars_aux {u lit : String} (hl : pyLower u = lit)
    (h1 : ∀ x ∈ lit.data, x.isDigit = false)
    (h2 : ∀ x ∈ lit.data, isWsChar x = false)
    (h3 : ',' ∉ lit.data) (h4 : '€' ∉ lit.data) (h5 : '$' ∉ lit.data) :
    (∀ c ∈ u.data, c.isDigit = false ∧ c ≠ ',' ∧ (isWsChar c = true → c = ' ')) ∧
    hasChar u '€' = false ∧ hasChar u '$' = false := by
  have hmap : ∀ c ∈ u.data, lowChar c ∈ lit.data := fun c hc =>
    lowChar_mem_of_lower_eq hl hc
  refine ⟨?_, ?_, ?_⟩
  · intro c hc
    refine ⟨?_, ?_, ?_⟩
    · rw [← lowChar_isDigit]
      exact h1 _ (hmap c hc)
    · apply ne_of_lowChar (hmap c hc)
      rw [show lowChar ',' = ',' from rfl]
      exact h3
    · intro hw
      exfalso
      have := h2 _ (hmap c hc)
      rw [lowChar_isWs] at this
      rw [hw] at this
      exact absurd this (by decide)
  · cases hh : hasChar u '€'
    · rfl
    · exfalso
      unfold hasChar at hh
      have : '€' ∈ u.data := by
        rw [List.contains_eq_any_beq] at hh
        simp only [List.any_eq_true, beq_iff_eq] at hh
        rcases hh with ⟨x, hx, rfl⟩
        exact hx
      have := hmap _ this
      rw [show lowChar '€' = '€' from rfl] at this
      exact h4 this
  · cases hh : hasChar u '$'
    · rfl
    · exfalso
      unfold hasChar at hh
      have : '$' ∈ u.data := by
        rw [List.contains_eq_any_beq] at hh
        simp only [List.any_eq_true, beq_iff_eq] at hh
        rcases hh with ⟨x, hx, rfl⟩
        exact hx
      have := hmap _ this
      rw [show lowChar '$' = '$' from rfl] at this
      exact h5 this

/-- C10 (as stated): on a surface-named or explicit area field, a purely
alphabetic yes-no literal is classified Area, not Boolean, and cleans to
null because the area extraction finds no digit run. -/
theorem claim_C10 (f w : String)
    (hf : containsSub "surface" (pyLower f) = true ∨ pyLower f ∈ areaFieldNames)
    (hw : pyLower (pyStrip w) ∈ (["yes", "no", "y", "n", "true", "false"] : List String)) :
    classify f (PyVal.str w) = CType.area ∧ smartClean f (PyVal.str w) = PyVal.none := by
  have hmem : pyLower (pyStrip w) = "yes" ∨ pyLower (pyStrip w) = "no" ∨
      pyLower (pyStrip w) = "y" ∨ pyLower (pyStrip w) = "n" ∨
      pyLower (pyStrip w) = "true" ∨ pyLower (pyStrip w) = "false" := by
    simpa using hw
  have hfacts : (∀ c ∈ (pyStrip w).data, c.isDigit = false ∧ c ≠ ',' ∧
      (isWsChar c = true → c = ' ')) ∧
      hasChar (pyStrip w) '€' = false ∧ hasChar (pyStrip w) '$' = false := by
    rcases hmem with h | h | h | h | h | h <;>
      exact c10_chars_aux h (by decide) (by decide) (by decide) (by decide) (by decide)
  rcases hfacts with ⟨hchars, heuro, hdollar⟩
  have hflp : (pyLower f == "price") = false := by
    cases hb : pyLower f == "price"
    · rfl
    · exfalso
      have hfl : pyLower f = "price" := by rwa [beq_iff_eq] at hb
      rcases hf with h | h
      · rw [hfl] at h
        exact absurd h (by decide)
      · rw [hfl] at h
        exact absurd h (by decide)
  have hflc : (pyLower f == "cadastral_income") = false := by
    cases hb : pyLower f == "cadastral_income"
    · rfl
    · exfalso
      have hfl : pyLower f = "cadastral_income" := by rwa [beq_iff_eq] at hb
      rcases hf with h | h
      · rw [hfl] at h
        exact absurd h (by decide)
      · rw [hfl] at h
        exact absurd h (by decide)
  have hcur : isCurrencyTrigger (pyLower f) (pyStrip w) = false := by
    unfold isCurrencyTrigger
    rw [heuro, hdollar, hflp, hflc]
    rfl
  have harea : isAreaTrigger (pyLower f) (pyStrip w) = true := by
    unfold isAreaTrigger
    rcases hf with h | h
    · rw [h]
      simp
    · have hc2 : areaFieldNames.contains (pyLower f) = true := List.elem_eq_true_of_mem h
      rw [hc2]
      simp
  have hwne : pyFalsy (PyVal.str w) = false := by
    cases hb : w == ""
    · simp [pyFalsy, hb]
    · exfalso
      have : w = "" := by rwa [beq_iff_eq] at hb
      rw [this] at hmem
      rcases hmem with h | h | h | h | h | h <;> exact absurd h (by decide)
  have hareaclean : cleanArea (pyStrip w) = none :=
    cleanArea_none_chars (pyStrip_idem w) hchars
  constructor
  · unfold classify
    rw [if_neg (by rw [hwne]; exact Bool.false_ne_true)]
    simp only [pyStr]
    rw [hcur]
    simp only [Bool.false_eq_true, if_false]
    rw [harea]
    simp
  · unfold smartClean
    rw [if_neg (by rw [hwne]; exact Bool.false_ne_true)]
    simp only [pyStr]
    rw [hcur]
    simp only [Bool.false_eq_true, if_false]
    rw [harea]
    simp only [if_true]
    rw [hareaclean]
    rfl

/-- C10 witness: the field garden with the value Yes cleans to null under
area classification. -/
theorem claim_C10_witness :
    classify "garden" (PyVal.str "Yes") = CType.area ∧
    smartClean "garden" (PyVal.str "Yes") = PyVal.none :=
  claim_C10 "garden" "Yes" (Or.inr (by decide)) (by decide)

/-! Digit-string lemmas for re-cleaning canonical integers. -/

theorem mk_natToChars_ne {n : Nat} {lit : String} {c : Char} (hc : c ∈ lit.data)
    (hcd : c.isDigit = false) : (⟨natToChars n⟩ : String) ≠ lit := by
  intro he
  have hdata : natToChars n = lit.data := congrArg String.data he
  rw [← hdata] at hc
  have := natToChars_all_digit n c hc
  rw [this] at hcd
  exact absurd hcd (by decide)

theorem mk_natToChars_parse {n : Nat} {t : String} (he : (⟨natToChars n⟩ : String) = t) :
    parseDigitsFrom 0 t.data = some n := by
  have hdata : natToChars n = t.data := congrArg String.data he
  rw [← hdata]
  exact parseDigitsFrom_zero_natToChars n

theorem pyStrip_natToChars (n : Nat) :
    pyStrip (⟨natToChars n⟩ : String) = (⟨natToChars n⟩ : String) := by
  unfold pyStrip
  apply congrArg String.mk
  exact stripL_eq_self_of_all (fun c hc => not_ws_of_digit (natToChars_all_digit n c hc))

theorem pyLower_natToChars (n : Nat) :
    pyLower (⟨natToChars n⟩ : String) = (⟨natToChars n⟩ : String) := by
  unfold pyLower
  apply congrArg String.mk
  show (natToChars n).map lowChar = natToChars n
  rw [List.map_congr_left (fun c hc => lowChar_of_isDigit (natToChars_all_digit n c hc))]
  exact List.map_id (natToChars n)

theorem beq_natToChars_empty (n : Nat) : ((⟨natToChars n⟩ : String) == "") = false :=
  beq_empty_false (natToChars_ne_nil n)

theorem unavailable_contains_natToChars (n : Nat) :
    unavailableLits.contains (⟨natToChars n⟩ : String) = false := by
  cases hc : unavailableLits.contains (⟨natToChars n⟩ : String)
  · rfl
  · exfalso
    have hmem : (⟨natToChars n⟩ : String) ∈ unavailableLits := by
      rw [List.contains_eq_any_beq] at hc
      simp only [List.any_eq_true, beq_iff_eq] at hc
      rcases hc with ⟨x, hx, rfl⟩
      exact hx
    have hd : (⟨natToChars n⟩ : String) = "(information not available)" ∨
        (⟨natToChars n⟩ : String) = "Not applicable" ∨
        (⟨natToChars n⟩ : String) = "" := by simpa [unavailableLits] using hmem
    rcases hd with h | h | h
    · exact @mk_natToChars_ne n "(information not available)" '(' (by decide) (by decide) h
    · exact @mk_natToChars_ne n "Not applicable" 'N' (by decide) (by decide) h
    · exact natToChars_ne_nil n (congrArg String.data h)

theorem cleanCurrency_natToChars (n : Nat) :
    cleanCurrency (⟨natToChars n⟩ : String) = some (n : Int) := by
  unfold cleanCurrency
  rw [beq_natToChars_empty n]
  simp only [Bool.false_eq_true, if_false, pyStrip_natToChars n]
  rw [unavailable_contains_natToChars n]
  simp only [Bool.false_eq_true, if_false]
  rw [stripCurrency_eq_self (natToChars_all_digit n)]
  exact pyInt_natToChars n

theorem dot_contains_natToChars (n : Nat) : (natToChars n).contains '.' = false := by
  cases hc : (natToChars n).contains '.'
  · rfl
  · exfalso
    have : '.' ∈ natToChars n := by
      rw [List.contains_eq_any_beq] at hc
      simp only [List.any_eq_true, beq_iff_eq] at hc
      rcases hc with ⟨x, hx, rfl⟩
      exact hx
    have := natToChars_all_digit n '.' this
    exact absurd this (by decide)

theorem cleanArea_natToChars (n : Nat) :
    cleanArea (⟨natToChars n⟩ : String) = some (n : Int) := by
  unfold cleanArea
  rw [beq_natToChars_empty n]
  simp only [Bool.false_eq_true, if_false, pyStrip_natToChars n]
  rw [unavailable_contains_natToChars n]
  simp only [Bool.false_eq_true, if_false]
  rw [firstRun_all (natToChars_ne_nil n)
    (fun c hc => by unfold isRunChar; rw [natToChars_all_digit n c hc]; rfl)]
  show (if (removeSpComma (natToChars n)).contains '.' = true then none
        else pyInt ⟨removeSpComma (natToChars n)⟩) = some (n : Int)
  rw [removeSpComma_eq_self (natToChars_all_digit n)]
  rw [dot_contains_natToChars n]
  simp only [Bool.false_eq_true, if_false]
  exact pyInt_natToChars n

theorem cleanEnergy_natToChars (n : Nat) :
    cleanEnergy (⟨natToChars n⟩ : String) = some (n : Int) := by
  unfold cleanEnergy
  rw [beq_natToChars_empty n]
  simp only [Bool.false_eq_true, if_false, pyStrip_natToChars n]
  rw [unavailable_contains_natToChars n]
  simp only [Bool.false_eq_true, if_false]
  rw [firstRun_all (natToChars_ne_nil n)
    (fun c hc => by unfold isRunChar; rw [natToChars_all_digit n c hc]; rfl)]
  show (if (removeSpComma (natToChars n)).contains '.' = true then none
        else pyInt ⟨removeSpComma (natToChars n)⟩) = some (n : Int)
  rw [removeSpComma_eq_self (natToChars_all_digit n)]
  rw [dot_contains_natToChars n]
  simp only [Bool.false_eq_true, if_false]
  exact pyInt_natToChars n

theorem cleanInteger_natToChars (n : Nat) :
    cleanInteger (⟨natToChars n⟩ : String) = some (n : Int) := by
  unfold cleanInteger
  rw [beq_natToChars_empty n]
  simp only [Bool.false_eq_true, if_false, pyStrip_natToChars n]
  rw [unavailable_contains_natToChars n]
  simp only [Bool.false_eq_true, if_false]
  rw [removeSpComma_eq_self (natToChars_all_digit n)]
  exact pyInt_natToChars n

theorem beq_mk_natToChars {n : Nat} {t : String} :
    ((⟨natToChars n⟩ : String) == t) = true → (⟨natToChars n⟩ : String) = t := by
  intro h
  rwa [beq_iff_eq] at h

theorem cleanBinary_natToChars {n : Nat} (h0 : n ≠ 0) (h1 : n ≠ 1) :
    cleanBinary (⟨natToChars n⟩ : String) = none := by
  unfold cleanBinary
  rw [beq_natToChars_empty n]
  simp only [Bool.false_eq_true, if_false, pyStrip_natToChars n, pyLower_natToChars n]
  have hyes : ((⟨natToChars n⟩ : String) == "yes") = false := by
    cases hb : (⟨natToChars n⟩ : String) == "yes"
    · rfl
    · exact absurd (beq_mk_natToChars hb)
        (@mk_natToChars_ne n _ 'y' (by decide) (by decide))
  have hy : ((⟨natToChars n⟩ : String) == "y") = false := by
    cases hb : (⟨natToChars n⟩ : String) == "y"
    · rfl
    · exact absurd (beq_mk_natToChars hb)
        (@mk_natToChars_ne n _ 'y' (by decide) (by decide))
  have hone : ((⟨natToChars n⟩ : String) == "1") = false := by
    cases hb : (⟨natToChars n⟩ : String) == "1"
    · rfl
    · exfalso
      have := mk_natToChars_parse (beq_mk_natToChars hb)
      have hval : parseDigitsFrom 0 ("1".data) = some 1 := by decide
      rw [hval] at this
      injection this with hv
      exact h1 hv.symm
  have htrue : ((⟨natToChars n⟩ : String) == "true") = false := by
    cases hb : (⟨natToChars n⟩ : String) == "true"
    · rfl
    · exact absurd (beq_mk_natToChars hb)
        (@mk_natToChars_ne n _ 't' (by decide) (by decide))
  have hno : ((⟨natToChars n⟩ : String) == "no") = false := by
    cases hb : (⟨natToChars n⟩ : String) == "no"
    · rfl
    · exact absurd (beq_mk_natToChars hb)
        (@mk_natToChars_ne n _ 'n' (by decide) (by decide))
  have hn : ((⟨natToChars n⟩ : String) == "n") = false := by
    cases hb : (⟨natToChars n⟩ : String) == "n"
    · rfl
    · exact absurd (beq_mk_natToChars hb)
        (@mk_natToChars_ne n _ 'n' (by decide) (by decide))
  have hzero : ((⟨natToChars n⟩ : String) == "0") = false := by
    cases hb : (⟨natToChars n⟩ : String) == "0"
    · rfl
    · exfalso
      have := mk_natToChars_parse (beq_mk_natToChars hb)
      have hval : parseDigitsFrom 0 ("0".data) = some 0 := by decide
      rw [hval] at this
      injection this with hv
      exact h0 hv.symm
  have hfalse : ((⟨natToChars n⟩ : String) == "false") = false := by
    cases hb : (⟨natToChars n⟩ : String) == "false"
    · rfl
    · exact absurd (beq_mk_natToChars hb)
        (@mk_natToChars_ne n _ 'f' (by decide) (by decide))
  rw [hyes, hy, hone, htrue, hno, hn, hzero, hfalse]
  simp

theorem cleanEmpty_natToChars (n : Nat) :
    cleanEmpty (⟨natToChars n⟩ : String) = PyVal.str (⟨natToChars n⟩ : String) := by
  unfold cleanEmpty
  rw [beq_natToChars_empty n]
  simp only [Bool.false_eq_true, if_false, pyStrip_natToChars n, pyLower_natToChars n]
  rw [if_neg]
  intro hmem
  have hd : (⟨natToChars n⟩ : String) = "(information not available)" ∨
      (⟨natToChars n⟩ : String) = "not applicable" ∨
      (⟨natToChars n⟩ : String) = "no certificate" ∨
      (⟨natToChars n⟩ : String) = "area info not available" ∨
      (⟨natToChars n⟩ : String) = "" := by
    have := hmem
    rw [List.contains_eq_any_beq] at this
    simp only [List.any_eq_true, beq_iff_eq] at this
    rcases this with ⟨x, hx, rfl⟩
    simpa [emptyLits] using hx
  rcases hd with h | h | h | h | h
  · exact @mk_natToChars_ne n _ '(' (by decide) (by decide) h
  · exact @mk_natToChars_ne n _ 'n' (by decide) (by decide) h
  · exact @mk_natToChars_ne n _ 'n' (by decide) (by decide) h
  · exact @mk_natToChars_ne n _ 'a' (by decide) (by decide) h
  · exact natToChars_ne_nil n (congrArg String.data h)

theorem ofOptInt_ne_str (o : Option Int) (t : String) : ofOptInt o ≠ PyVal.str t := by
  intro h
  cases o <;> simp [ofOptInt] at h

theorem smartClean_noneVal (f : String) : smartClean f PyVal.none = PyVal.none := rfl

/-- Re-cleaning a nonnegative integer value yields the same integer, null,
or the decimal string of the integer, depending only on which cleaner the
field name selects. -/
theorem smartClean_int_reclean (f : String) (i : Int) (hi : 0 ≤ i) :
    smartClean f (PyVal.int i) = PyVal.int i ∨ smartClean f (PyVal.int i) = PyVal.none ∨
    smartClean f (PyVal.int i) = PyVal.str (pyStr (PyVal.int i)) := by
  by_cases h0 : i = 0
  · right; left
    unfold smartClean
    rw [if_pos]
    unfold pyFalsy
    rw [h0]
    rfl
  · have hps : pyStr (PyVal.int i) = (⟨natToChars i.toNat⟩ : String) := by
      simp only [pyStr]
      have hic : intChars i = natToChars i.toNat := by
        unfold intChars
        rw [if_neg (not_lt.mpr hi)]
      rw [hic]
    have hni : (i.toNat : Int) = i := Int.toNat_of_nonneg hi
    have hfal : pyFalsy (PyVal.int i) = false := by
      unfold pyFalsy
      simp [h0]
    unfold smartClean
    rw [if_neg (by rw [hfal]; exact Bool.false_ne_true)]
    simp only [hps, pyStrip_natToChars]
    by_cases h1 : isCurrencyTrigger (pyLower f) (⟨natToChars i.toNat⟩ : String) = true
    · rw [if_pos h1, cleanCurrency_natToChars]
      left
      simp [ofOptInt, hni]
    · rw [if_neg h1]
      by_cases h2 : isAreaTrigger (pyLower f) (⟨natToChars i.toNat⟩ : String) = true
      · rw [if_pos h2, cleanArea_natToChars]
        left
        simp [ofOptInt, hni]
      · rw [if_neg h2]
        by_cases h3 : isEnergyTrigger (pyLower f) (⟨natToChars i.toNat⟩ : String) = true
        · rw [if_pos h3, cleanEnergy_natToChars]
          left
          simp [ofOptInt, hni]
        · rw [if_neg h3]
          by_cases h4 : isIntTrigger (pyLower f) = true
          · rw [if_pos h4, cleanInteger_natToChars]
            left
            simp [ofOptInt, hni]
          · rw [if_neg h4]
            by_cases h5 : isBinaryTrigger (pyLower f) (⟨natToChars i.toNat⟩ : String) = true
            · rw [if_pos h5]
              by_cases hone : i.toNat = 1
              · rw [hone]
                left
                have hone1 : natToChars 1 = ['1'] := by
                  rw [natToChars]
                  rfl
                have hbin : cleanBinary (⟨natToChars 1⟩ : String) = some 1 := by
                  rw [hone1]
                  decide
                rw [hbin]
                have hi1 : i = 1 := by omega
                simp [ofOptInt, hi1]
              · rw [cleanBinary_natToChars (by omega) hone]
                right; left
                rfl
            · rw [if_neg h5]
              rw [cleanEmpty_natToChars]
              right; right
              rfl

/-- A string produced by the cleaning dispatch is a fixed point of the
dispatch: pass-through strings re-clean to themselves. -/
theorem smartClean_str_fix (f : String) (v : PyVal) {t : String}
    (h : smartClean f v = PyVal.str t) : smartClean f (PyVal.str t) = PyVal.str t := by
  unfold smartClean at h
  by_cases hf : pyFalsy v = true
  · rw [if_pos hf] at h
    exact absurd h (by intro hx; cases hx)
  · rw [if_neg hf] at h
    simp only at h
    by_cases h1 : isCurrencyTrigger (pyLower f) (pyStrip (pyStr v)) = true
    · rw [if_pos h1] at h
      exact absurd h (ofOptInt_ne_str _ _)
    · rw [if_neg h1] at h
      by_cases h2 : isAreaTrigger (pyLower f) (pyStrip (pyStr v)) = true
      · rw [if_pos h2] at h
        exact absurd h (ofOptInt_ne_str _ _)
      · rw [if_neg h2] at h
        by_cases h3 : isEnergyTrigger (pyLower f) (pyStrip (pyStr v)) = true
        · rw [if_pos h3] at h
          exact absurd h (ofOptInt_ne_str _ _)
        · rw [if_neg h3] at h
          by_cases h4 : isIntTrigger (pyLower f) = true
          · rw [if_pos h4] at h
            exact absurd h (ofOptInt_ne_str _ _)
          · rw [if_neg h4] at h
            by_cases h5 : isBinaryTrigger (pyLower f) (pyStrip (pyStr v)) = true
            · rw [if_pos h5] at h
              exact absurd h (ofOptInt_ne_str _ _)
            · rw [if_neg h5] at h
              unfold cleanEmpty at h
              by_cases hse : (pyStrip (pyStr v) == "") = true
              · rw [if_pos hse] at h
                exact absurd h (by intro hx; cases hx)
              · rw [if_neg hse] at h
                simp only at h
                by_cases hcon :
                    emptyLits.contains (pyLower (pyStrip (pyStrip (pyStr v)))) = true
                · rw [if_pos hcon] at h
                  exact absurd h (by intro hx; cases hx)
                · rw [if_neg hcon] at h
                  have hts : t = pyStrip (pyStr v) := by
                    injection h with h2
                    exact h2.symm
                  subst hts
                  have hidem : pyStrip (pyStr (PyVal.str (pyStrip (pyStr v)))) =
                      pyStrip (pyStr v) := pyStrip_idem (pyStr v)
                  unfold smartClean
                  rw [if_neg (show ¬ pyFalsy (PyVal.str (pyStrip (pyStr v))) = true from hse)]
                  simp only [hidem]
                  rw [if_neg h1, if_neg h2, if_neg h3, if_neg h4, if_neg h5]
                  unfold cleanEmpty
                  rw [if_neg hse]
                  simp only
                  rw [if_neg hcon]

/-- C7 counterexample: the furnished field cleaned from the raw value No is
canonical 0, and re-cleaning that record yields null, not 0: a single
re-clean is not a no-op. -/
theorem claim_C7_counterexample :
    smartClean "furnished" (PyVal.str "No") = PyVal.int 0 ∧
    smartClean "furnished" (smartClean "furnished" (PyVal.str "No")) = PyVal.none ∧
    smartClean "furnished" (smartClean "furnished" (PyVal.str "No")) ≠
      smartClean "furnished" (PyVal.str "No") := by
  refine ⟨by decide, by decide, by decide⟩

/-- C7 (amended): re-cleaning an already cleaned field is a no-op when the
cleaned value is null or a pass-through string; a nonnegative integer
either survives unchanged, collapses to null (always so for 0, through the
falsy check), or is turned into its decimal string when no cleaning
pattern matches the field; so a second cleaning pass is not the identity
in general. -/
theorem claim_C7_amended (f : String) (v : PyVal) :
    (smartClean f v = PyVal.none → smartClean f (smartClean f v) = smartClean f v) ∧
    (∀ t : String, smartClean f v = PyVal.str t →
      smartClean f (smartClean f v) = smartClean f v) ∧
    (∀ i : Int, 0 ≤ i → smartClean f v = PyVal.int i →
      smartClean f (smartClean f v) = smartClean f v ∨
      smartClean f (smartClean f v) = PyVal.none ∨
      smartClean f (smartClean f v) = PyVal.str (pyStr (PyVal.int i))) := by
  refine ⟨?_, ?_, ?_⟩
  · intro h
    rw [h]
    exact smartClean_noneVal f
  · intro t h
    rw [h]
    exact smartClean_str_fix f v h
  · intro i hi h
    rw [h]
    rcases smartClean_int_reclean f i hi with h2 | h2 | h2
    · left
      exact h2
    · right; left
      exact h2
    · right; right
      exact h2

/-- C7 witness: the amended theorem applied to the price field with the raw
value 245 000 euro, whose canonical value 245000 re-cleans to itself. -/
theorem claim_C7_witness :
    smartClean "price" (PyVal.str "245 000 €") = PyVal.int 245000 ∧
    (smartClean "price" (smartClean "price" (PyVal.str "245 000 €")) =
      smartClean "price" (PyVal.str "245 000 €") ∨
     smartClean "price" (smartClean "price" (PyVal.str "245 000 €")) = PyVal.none ∨
     smartClean "price" (smartClean "price" (PyVal.str "245 000 €")) =
      PyVal.str (pyStr (PyVal.int 245000))) := by
  refine ⟨by decide, ?_⟩
  exact (claim_C7_amended "price" (PyVal.str "245 000 €")).2.2 245000 (by decide) (by decide)

/-! Lemmas for the currency normalization claim. -/

theorem pyIntCore_none_of_all_not_digit {l : List Char}
    (h : ∀ c ∈ l, c.isDigit = false) : pyIntCore l = none := by
  cases l with
  | nil => rfl
  | cons c0 t =>
    by_cases hm : c0 = '-'
    · subst hm
      show (if t.isEmpty then none
            else (parseDigitsFrom 0 t).map (fun n => -(n : Int))) = none
      cases t with
      | nil => rfl
      | cons c1 t1 =>
        rw [parseDigitsFrom_none_of_bad (List.mem_cons_self c1 t1)
          (h c1 (by simp)) 0]
        rfl
    · by_cases hp : c0 = '+'
      · subst hp
        show (if t.isEmpty then none
              else (parseDigitsFrom 0 t).map (fun n => (n : Int))) = none
        cases t with
        | nil => rfl
        | cons c1 t1 =>
          rw [parseDigitsFrom_none_of_bad (List.mem_cons_self c1 t1)
            (h c1 (by simp)) 0]
          rfl
      · exact pyIntCore_none_of_bad (List.mem_cons_self c0 t) (h c0 (by simp)) hm hp

/-- The currency cleaner agrees everywhere with stripping the currency
symbols and whitespace and parsing the remainder as an integer: the early
literal checks of the source are subsumed by parse failure. -/
theorem cleanCurrency_eq (v : String) :
    cleanCurrency v = pyInt (⟨stripCurrency (pyStrip v).data⟩ : String) := by
  unfold cleanCurrency
  by_cases hv : (v == "") = true
  · rw [if_pos hv]
    have hv2 : v = "" := by rwa [beq_iff_eq] at hv
    subst hv2
    rfl
  · rw [if_neg hv]
    simp only
    by_cases hcon : unavailableLits.contains (pyStrip v) = true
    · rw [if_pos hcon]
      have hmem : pyStrip v ∈ unavailableLits := by
        rw [List.contains_eq_any_beq] at hcon
        simp only [List.any_eq_true, beq_iff_eq] at hcon
        rcases hcon with ⟨x, hx, rfl⟩
        exact hx
      have hd : pyStrip v = "(information not available)" ∨
          pyStrip v = "Not applicable" ∨ pyStrip v = "" := by
        simpa [unavailableLits] using hmem
      rcases hd with h | h | h <;> rw [h] <;> decide
    · rw [if_neg hcon]

/-- C8 counterexample: the value 1.5 euro leaves digits after stripping,
yet the normalization is null because the remainder fails integer parsing,
refuting that null happens exactly when no digits remain. -/
theorem claim_C8_counterexample :
    cleanCurrency "1.5 €" = none ∧
    (stripCurrency (pyStrip "1.5 €").data).any (fun c => c.isDigit) = true := by
  refine ⟨by decide, by decide⟩

/-- C8 (amended): currency normalization strips the euro and dollar signs
and all whitespace and parses the remainder as an integer; the result is
null exactly when the remainder fails integer parsing, in particular
whenever no digits remain, but also when non-digit characters such as a
decimal point survive among the digits. The two concrete values of the
claim normalize as stated. -/
theorem claim_C8_amended :
    (∀ v : String, cleanCurrency v = pyInt (⟨stripCurrency (pyStrip v).data⟩ : String)) ∧
    cleanCurrency "245 000 €" = some 245000 ∧
    cleanCurrency "758 €" = some 758 ∧
    (∀ v : String, ((pyStrip v).data.all (fun c => !c.isDigit)) = true →
      cleanCurrency v = none) := by
  refine ⟨cleanCurrency_eq, by decide, by decide, ?_⟩
  intro v hall
  rw [cleanCurrency_eq v]
  unfold pyInt
  apply pyIntCore_none_of_all_not_digit
  intro c hc
  have hc2 : c ∈ stripCurrency (pyStrip v).data :=
    mem_stripL (by simpa using hc)
  have hc3 : c ∈ (pyStrip v).data := mem_of_mem_stripCurrency hc2
  have := List.all_eq_true.mp hall c hc3
  simpa using this

/-- C8 witness: a digit-free value has no digits after stripping and
normalizes to null through the amended theorem. -/
theorem claim_C8_witness :
    ((pyStrip "no price").data.all (fun c => !c.isDigit)) = true ∧
    cleanCurrency "no price" = none :=
  ⟨by decide, claim_C8_amended.2.2.2 "no price" (by decide)⟩

/-! Key-set lemmas for process_item. -/

theorem anyKey_iff (r : List (String × PyVal)) (f : String) :
    r.any (fun p => p.1 == f) = true ↔ f ∈ r.map Prod.fst := by
  rw [List.any_eq_true]
  constructor
  · rintro ⟨p, hp, hpf⟩
    rw [beq_iff_eq] at hpf
    rw [← hpf]
    exact List.mem_map_of_mem Prod.fst hp
  · intro hf
    rcases List.mem_map.mp hf with ⟨p, hp, hpf⟩
    exact ⟨p, hp, by rw [beq_iff_eq]; exact hpf⟩

theorem anyKey_congr {a b : List (String × PyVal)}
    (h : a.map Prod.fst = b.map Prod.fst) (g : String) :
    a.any (fun p => p.1 == g) = b.any (fun p => p.1 == g) := by
  cases hb : b.any (fun p => p.1 == g)
  · cases ha : a.any (fun p => p.1 == g)
    · rfl
    · exfalso
      have := (anyKey_iff a g).mp ha
      rw [h] at this
      have := (anyKey_iff b g).mpr this
      rw [hb] at this
      exact absurd this (by decide)
  · have := (anyKey_iff b g).mp hb
    rw [← h] at this
    exact (anyKey_iff a g).mpr this

theorem setField_keys_mem {r : List (String × PyVal)} {f : String} (v : PyVal)
    (h : r.any (fun p => p.1 == f) = true) :
    (setField r f v).map Prod.fst = r.map Prod.fst := by
  unfold setField
  rw [if_pos h, List.map_map]
  apply List.map_congr_left
  intro p hp
  by_cases hpf : p.1 = f
  · simp [hpf]
  · simp [hpf]

theorem setField_keys_app {r : List (String × PyVal)} {f : String} (v : PyVal)
    (h : r.any (fun p => p.1 == f) = false) :
    (setField r f v).map Prod.fst = r.map Prod.fst ++ [f] := by
  unfold setField
  rw [h]
  simp

theorem processItem_keys (D : List String) (r : List (String × PyVal)) (hD : D.Nodup) :
    (processItem D r).map Prod.fst =
      r.map Prod.fst ++ D.filter (fun f => !(r.any (fun p => p.1 == f))) := by
  induction D generalizing r with
  | nil => simp [processItem]
  | cons f T ih =>
    rcases List.nodup_cons.mp hD with ⟨hfT, hT⟩
    have hstep : processItem (f :: T) r =
        processItem T (setField r f (smartClean f (getField r f))) := rfl
    rw [hstep]
    set acc1 := setField r f (smartClean f (getField r f)) with hacc
    by_cases hf : r.any (fun p => p.1 == f) = true
    · have hkeys : acc1.map Prod.fst = r.map Prod.fst := setField_keys_mem _ hf
      rw [ih acc1 hT, hkeys]
      congr 1
      rw [List.filter_cons]
      have : (!(r.any (fun p => p.1 == f))) = false := by rw [hf]; rfl
      rw [this]
      simp only [Bool.false_eq_true, if_false]
      apply List.filter_congr
      intro g hg
      rw [anyKey_congr hkeys g]
    · have hf2 : r.any (fun p => p.1 == f) = false := by
        cases hx : r.any (fun p => p.1 == f)
        · rfl
        · exact absurd hx hf
      have hkeys : acc1.map Prod.fst = r.map Prod.fst ++ [f] := setField_keys_app _ hf2
      rw [ih acc1 hT, hkeys]
      rw [List.filter_cons]
      have : (!(r.any (fun p => p.1 == f))) = true := by rw [hf2]; rfl
      rw [this]
      simp only [if_true]
      rw [List.append_assoc, List.singleton_append]
      congr 2
      apply List.filter_congr
      intro g hg
      have hgne : g ≠ f := fun he => hfT (he ▸ hg)
      have hgany : acc1.any (fun p => p.1 == g) = r.any (fun p => p.1 == g) := by
        cases hx : r.any (fun p => p.1 == g)
        · cases hy : acc1.any (fun p => p.1 == g)
          · rfl
          · exfalso
            have := (anyKey_iff acc1 g).mp hy
            rw [hkeys] at this
            rcases List.mem_append.mp this with h1 | h1
            · have := (anyKey_iff r g).mpr h1
              rw [hx] at this
              exact absurd this (by decide)
            · simp at h1
              exact hgne h1
        · have := (anyKey_iff r g).mp hx
          have : g ∈ acc1.map Prod.fst := by
            rw [hkeys]
            exact List.mem_append.mpr (Or.inl this)
          exact (anyKey_iff acc1 g).mpr this
      rw [hgany]

/-- C9 counterexample: a record populating only the price field gains the
declared but absent garden field after cleaning, so the key set grows. -/
theorem claim_C9_counterexample :
    (processItem ["price", "garden"] [("price", PyVal.str "245 000 €")]).map Prod.fst =
      ["price", "garden"] ∧
    (["price", "garden"] : List String) ≠ ["price"] := by
  refine ⟨by decide, by decide⟩

/-- C9 (amended): cleaning never drops a field; the cleaned record carries
the input fields in order, followed by the declared field names absent
from the input (cleaned from null, hence null); the key set is unchanged
exactly when every declared field name is already present, as with
dict-backed items whose field names are the record keys. -/
theorem claim_C9_amended (D : List String) (r : List (String × PyVal)) (hD : D.Nodup) :
    (processItem D r).map Prod.fst =
      r.map Prod.fst ++ D.filter (fun f => !(r.any (fun p => p.1 == f))) ∧
    ((∀ f ∈ D, f ∈ r.map Prod.fst) → (processItem D r).map Prod.fst = r.map Prod.fst) := by
  refine ⟨processItem_keys D r hD, ?_⟩
  intro hall
  rw [processItem_keys D r hD]
  have : D.filter (fun f => !(r.any (fun p => p.1 == f))) = [] := by
    rw [List.filter_eq_nil_iff]
    intro f hf
    have := (anyKey_iff r f).mpr (hall f hf)
    rw [this]
    decide
  rw [this]
  simp

/-- C9 witness: on a record already populating every declared field, the
key set is unchanged. -/
theorem claim_C9_witness :
    (processItem ["price"] [("price", PyVal.str "245 000 €")]).map Prod.fst = ["price"] :=
  (claim_C9_amended ["price"] [("price", PyVal.str "245 000 €")] (by decide)).2 (by decide)

/-! Deduplication lemmas. -/

theorem dropDupGo_sublist (key : String) :
    ∀ (seen : List Cell) (rows : List Row), (dropDupGo key seen rows).Sublist rows := by
  intro seen rows
  induction rows generalizing seen with
  | nil => simp [dropDupGo]
  | cons r t ih =>
    unfold dropDupGo
    by_cases h : seen.contains (rowGet r key) = true
    · rw [if_pos h]
      exact (ih seen).cons r
    · rw [if_neg h]
      exact (ih (rowGet r key :: seen)).cons₂ r

theorem dropDupGo_filter (key : String) :
    ∀ (rows : List Row) (seen : List Cell) (k : Cell),
    (dropDupGo key seen rows).filter (fun r => rowGet r key == k) =
      if seen.contains k = true then []
      else (rows.filter (fun r => rowGet r key == k)).take 1 := by
  intro rows
  induction rows with
  | nil =>
    intro seen k
    by_cases h : seen.contains k = true <;> simp [dropDupGo, h]
  | cons r t ih =>
    intro seen k
    unfold dropDupGo
    by_cases hs : seen.contains (rowGet r key) = true
    · rw [if_pos hs, ih seen k]
      by_cases hk : seen.contains k = true
      · rw [if_pos hk, if_pos hk]
      · rw [if_neg hk, if_neg hk]
        have hrk : (rowGet r key == k) = false := by
          cases hb : rowGet r key == k
          · rfl
          · exfalso
            rw [beq_iff_eq] at hb
            rw [hb] at hs
            exact hk hs
        rw [List.filter_cons, hrk]
        simp
    · rw [if_neg hs, List.filter_cons]
      by_cases hrk : (rowGet r key == k) = true
      · have hkeq : rowGet r key = k := by rwa [beq_iff_eq] at hrk
        rw [hrk]
        simp only [if_true]
        have hkseen : seen.contains k = false := by
          cases hb : seen.contains k
          · rfl
          · exfalso
            rw [← hkeq] at hb
            exact hs hb
        rw [if_neg (by rw [hkseen]; exact Bool.false_ne_true)]
        rw [List.filter_cons, hrk]
        simp only [if_true]
        rw [ih (rowGet r key :: seen) k]
        rw [if_pos (by rw [List.contains_cons]; rw [hkeq]; simp)]
        simp
      · have hrk2 : (rowGet r key == k) = false := by
          cases hb : rowGet r key == k
          · rfl
          · exact absurd hb hrk
        rw [hrk2]
        simp only [Bool.false_eq_true, if_false]
        rw [List.filter_cons, hrk2]
        simp only [Bool.false_eq_true, if_false]
        rw [ih (rowGet r key :: seen) k]
        have hcons : ((rowGet r key :: seen).contains k) = (seen.contains k) := by
          rw [List.contains_cons]
          have : (k == rowGet r key) = false := by
            cases hb : k == rowGet r key
            · rfl
            · exfalso
              rw [beq_iff_eq] at hb
              rw [hb] at hrk
              simp at hrk
          rw [this]
          simp
        rw [hcons]

/-- C3 counterexample: two records both lacking the key are deduplicated
against each other: the second is dropped, so a null-key record is not
always kept. -/
theorem claim_C3_counterexample :
    dropDupFirst "property_id"
      [[("property_id", (none : Cell)), ("price", some (Val.i 100))],
       [("property_id", (none : Cell)), ("price", some (Val.i 200))]] =
      [[("property_id", (none : Cell)), ("price", some (Val.i 100))]] := by
  decide

/-- C3 (amended): deduplication scans in input order and keeps, for every
key value including the missing key, exactly the first record carrying it,
discarding the rest; survivors keep their input relative order. Missing
keys are treated as one shared key value, not exempted. -/
theorem claim_C3_amended (key : String) (rows : List Row) :
    (dropDupFirst key rows).Sublist rows ∧
    (∀ k : Cell, (dropDupFirst key rows).filter (fun r => rowGet r key == k) =
      (rows.filter (fun r => rowGet r key == k)).take 1) := by
  constructor
  · exact dropDupGo_sublist key [] rows
  · intro k
    unfold dropDupFirst
    rw [dropDupGo_filter key rows [] k]
    rw [if_neg]
    intro h
    simp at h

/-! Row and key lemmas for the merge. -/

theorem rowGet_tabulate (cols : List String) (g : String → Cell) (c : String) :
    rowGet (cols.map (fun c0 => (c0, g c0))) c = if c ∈ cols then g c else none := by
  induction cols with
  | nil => simp [rowGet]
  | cons a t ih =>
    unfold rowGet
    rw [List.map_cons, List.find?_cons]
    by_cases hac : (a == c) = true
    · have ha : a = c := by rwa [beq_iff_eq] at hac
      simp only [hac]
      rw [ha]
      simp
    · have hac2 : (a == c) = false := by
        cases hb : a == c
        · rfl
        · exact absurd hb hac
      simp only [hac2]
      unfold rowGet at ih
      rw [ih]
      have hne : c ≠ a := by
        intro he
        rw [he] at hac
        simp at hac
      by_cases hct : c ∈ t
      · rw [if_pos hct, if_pos (List.mem_cons_of_mem a hct)]
      · rw [if_neg hct, if_neg]
        intro hmem
        rcases List.mem_cons.mp hmem with h | h
        · exact hne h
        · exact hct h

theorem rowGet_reindex (cols : List String) (r : Row) (c : String) :
    rowGet (reindexRow cols r) c = if c ∈ cols then rowGet r c else none :=
  rowGet_tabulate cols (rowGet r) c

theorem rowKey_reindex {cols : List String} (h : "property_id" ∈ cols) (r : Row) :
    rowKey (reindexRow cols r) = rowKey r := by
  unfold rowKey
  rw [rowGet_reindex, if_pos h]

theorem pid_mem_schemaCols (A B : DF) (ord1 : List String) :
    "property_id" ∈ schemaCols A B ord1 := by
  unfold schemaCols
  exact List.mem_cons_self _ _

theorem keyIn_iff (rows : List Row) (k : Cell) :
    keyIn rows k = true ↔ ∃ r ∈ rows, rowKey r = k := by
  unfold keyIn
  rw [List.any_eq_true]
  constructor
  · rintro ⟨r, hr, hk⟩
    exact ⟨r, hr, by rwa [beq_iff_eq] at hk⟩
  · rintro ⟨r, hr, hk⟩
    exact ⟨r, hr, by rwa [beq_iff_eq]⟩

theorem map_rowKey_reRows {A : DF} {cs : List String} (h : "property_id" ∈ cs) :
    (reRows A cs).map rowKey = A.rows.map rowKey := by
  unfold reRows
  rw [List.map_map]
  apply List.map_congr_left
  intro r hr
  exact rowKey_reindex h r

theorem keyIn_congr {x y : List Row} (h : x.map rowKey = y.map rowKey) (k : Cell) :
    keyIn x k = keyIn y k := by
  cases hy : keyIn y k
  · cases hx : keyIn x k
    · rfl
    · exfalso
      rcases (keyIn_iff x k).mp hx with ⟨r, hr, hk⟩
      have : k ∈ y.map rowKey := by
        rw [← h]
        rw [← hk]
        exact List.mem_map_of_mem rowKey hr
      rcases List.mem_map.mp this with ⟨r2, hr2, hk2⟩
      have := (keyIn_iff y k).mpr ⟨r2, hr2, hk2⟩
      rw [hy] at this
      exact absurd this (by decide)
  · rcases (keyIn_iff y k).mp hy with ⟨r, hr, hk⟩
    have : k ∈ x.map rowKey := by
      rw [h]
      rw [← hk]
      exact List.mem_map_of_mem rowKey hr
    rcases List.mem_map.mp this with ⟨r2, hr2, hk2⟩
    exact (keyIn_iff x k).mpr ⟨r2, hr2, hk2⟩

theorem find?_key_unique {l : List Row} (hnd : (l.map rowKey).Nodup) {r : Row} {k : Cell}
    (hr : r ∈ l) (hk : rowKey r = k) : l.find? (fun x => rowKey x == k) = some r := by
  induction l with
  | nil => simp at hr
  | cons x t ih =>
    rw [List.map_cons, List.nodup_cons] at hnd
    rw [List.find?_cons]
    by_cases hx : (rowKey x == k) = true
    · have hxk : rowKey x = k := by rwa [beq_iff_eq] at hx
      simp only [hx]
      rcases List.mem_cons.mp hr with rfl | hrt
      · rfl
      · exfalso
        apply hnd.1
        rw [hxk, ← hk]
        exact List.mem_map_of_mem rowKey hrt
    · have hx2 : (rowKey x == k) = false := by
        cases hb : rowKey x == k
        · rfl
        · exact absurd hb hx
      simp only [hx2]
      rcases List.mem_cons.mp hr with rfl | hrt
      · exfalso
        rw [hk] at hx2
        simp at hx2
      · exact ih hnd.2 hrt

theorem filter_beq_of_nodup {α : Type} [BEq α] [LawfulBEq α] {l : List α} (h : l.Nodup)
    {a : α} (ha : a ∈ l) : l.filter (fun x => x == a) = [a] := by
  induction l with
  | nil => simp at ha
  | cons x t ih =>
    rw [List.nodup_cons] at h
    rw [List.filter_cons]
    rcases List.mem_cons.mp ha with he | hat
    · rw [← he] at h
      rw [← he]
      rw [if_pos (by simp)]
      have ht : t.filter (fun y => y == a) = [] := by
        rw [List.filter_eq_nil_iff]
        intro b hb hbe
        rw [beq_iff_eq] at hbe
        rw [hbe] at hb
        exact h.1 hb
      rw [ht]
    · have hxa : (x == a) = false := by
        cases hb : x == a
        · rfl
        · exfalso
          rw [beq_iff_eq] at hb
          rw [hb] at h
          exact h.1 hat
      rw [hxa]
      simp only [Bool.false_eq_true, if_false]
      exact ih h.2 hat

theorem getCellByKey_pid {rows : List Row} {k : Cell}
    (h : ∃ r ∈ rows, rowKey r = k) : getCellByKey rows k "property_id" = k := by
  unfold getCellByKey
  rcases h with ⟨r, hr, hk⟩
  cases hf : rows.find? (fun x => rowKey x == k) with
  | none =>
    exfalso
    rw [List.find?_eq_none] at hf
    exact hf r hr (by rw [beq_iff_eq]; exact hk)
  | some r2 =>
    have := List.find?_some hf
    rw [beq_iff_eq] at this
    exact this

theorem getCellByKey_absent {rows : List Row} {k : Cell}
    (h : ∀ r ∈ rows, rowKey r ≠ k) (c : String) : getCellByKey rows k c = none := by
  unfold getCellByKey
  rw [List.find?_eq_none.mpr]
  intro r hr
  have := h r hr
  cases hb : rowKey r == k
  · decide
  · rw [beq_iff_eq] at hb
    exact absurd hb this

theorem getCellByKey_unique {rows : List Row} (hnd : (rows.map rowKey).Nodup)
    {r : Row} {k : Cell} (hr : r ∈ rows) (hk : rowKey r = k) (c : String) :
    getCellByKey rows k c = rowGet r c := by
  unfold getCellByKey
  rw [find?_key_unique hnd hr hk]

theorem mem_commonKeyOrder_sub {ckA ckB : List Cell} {k : Cell}
    (h : k ∈ commonKeyOrder ckA ckB) : k ∈ ckA ∨ k ∈ ckB := by
  unfold commonKeyOrder at h
  by_cases he : (ckA == ckB) = true
  · rw [if_pos he] at h
    exact Or.inl h
  · rw [if_neg he] at h
    unfold sortKeysAsc at h
    have := (List.perm_insertionSort (fun a b => cellLe a b = true)
      (ckA ++ ckB.filter (fun k0 => !(ckA.contains k0)))).mem_iff.mp h
    rcases List.mem_append.mp this with h1 | h1
    · exact Or.inl h1
    · exact Or.inr (List.mem_filter.mp h1).1

theorem mem_commonKeyOrder_of_left {ckA ckB : List Cell} {k : Cell}
    (h : k ∈ ckA) : k ∈ commonKeyOrder ckA ckB := by
  unfold commonKeyOrder
  by_cases he : (ckA == ckB) = true
  · rw [if_pos he]
    exact h
  · rw [if_neg he]
    unfold sortKeysAsc
    apply (List.perm_insertionSort (fun a b => cellLe a b = true) _).mem_iff.mpr
    exact List.mem_append.mpr (Or.inl h)

theorem commonKeyOrder_nodup {ckA ckB : List Cell} (hA : ckA.Nodup) (hB : ckB.Nodup) :
    (commonKeyOrder ckA ckB).Nodup := by
  unfold commonKeyOrder
  by_cases he : (ckA == ckB) = true
  · rw [if_pos he]
    exact hA
  · rw [if_neg he]
    unfold sortKeysAsc
    rw [(List.perm_insertionSort (fun a b => cellLe a b = true) _).nodup_iff]
    rw [List.nodup_append]
    refine ⟨hA, List.Nodup.filter _ hB, ?_⟩
    intro k hk1 hk2
    have := (List.mem_filter.mp hk2).2
    have hc : ckA.contains k = true := List.elem_eq_true_of_mem hk1
    rw [hc] at this
    simp at this

theorem rowKey_merged_tab {allCols : List String} {aC bC : List Row} {k : Cell}
    (hpid : "property_id" ∈ allCols)
    (hk : k ∈ aC.map rowKey ∨ k ∈ bC.map rowKey) :
    rowKey (allCols.map (fun c => (c, mergeCell aC bC k c))) = k := by
  unfold rowKey
  rw [rowGet_tabulate allCols (mergeCell aC bC k) "property_id", if_pos hpid]
  unfold mergeCell
  rcases hk with hk | hk
  · rcases List.mem_map.mp hk with ⟨r, hr, hkr⟩
    rw [getCellByKey_pid ⟨r, hr, hkr⟩]
    cases k with
    | none =>
      cases hf : getCellByKey bC none "property_id" with
      | none => rfl
      | some v =>
        exfalso
        unfold getCellByKey at hf
        cases hf2 : bC.find? (fun x => rowKey x == (none : Cell)) with
        | none => rw [hf2] at hf; cases hf
        | some r2 =>
          rw [hf2] at hf
          have hk2 := List.find?_some hf2
          rw [beq_iff_eq] at hk2
          unfold rowKey at hk2
          have hf3 : rowGet r2 "property_id" = some v := hf
          rw [hk2] at hf3
          cases hf3
    | some v => rfl
  · by_cases hka : ∃ r ∈ aC, rowKey r = k
    · rw [getCellByKey_pid hka]
      cases k with
      | none =>
        cases hf : getCellByKey bC none "property_id" with
        | none => rfl
        | some v =>
          exfalso
          unfold getCellByKey at hf
          cases hf2 : bC.find? (fun x => rowKey x == (none : Cell)) with
          | none => rw [hf2] at hf; cases hf
          | some r2 =>
            rw [hf2] at hf
            have hk2 := List.find?_some hf2
            rw [beq_iff_eq] at hk2
            unfold rowKey at hk2
            have hf3 : rowGet r2 "property_id" = some v := hf
            rw [hk2] at hf3
            cases hf3
      | some v => rfl
    · have habs : ∀ r ∈ aC, rowKey r ≠ k := by
        intro r hr he
        exact hka ⟨r, hr, he⟩
      rw [getCellByKey_absent habs]
      rcases List.mem_map.mp hk with ⟨r, hr, hkr⟩
      exact getCellByKey_pid ⟨r, hr, hkr⟩

/-- C1: when a key occurs on both sides of the merge and keys are unique
per side, the output holds exactly one record for that key, and that
record takes, for every output column, the A-side value when present,
otherwise the B-side value (gap filling, not overwrite). -/
theorem claim_C1 (A B : DF) (ord1 : List String) (k : Cell) (rA rB : Row)
    (hA : (A.rows.map rowKey).Nodup) (hB : (B.rows.map rowKey).Nodup)
    (hrA : rA ∈ A.rows) (hkA : rowKey rA = k)
    (hrB : rB ∈ B.rows) (hkB : rowKey rB = k) :
    ((combineCore A B ord1).rows.filter (fun m => rowKey m == k)).length = 1 ∧
    (∀ m ∈ (combineCore A B ord1).rows, rowKey m = k →
      ∀ c ∈ (combineCore A B ord1).cols,
        rowGet m c = (match rowGet rA c with
                      | some v => some v
                      | none => rowGet rB c)) := by
  have hpid : "property_id" ∈ schemaCols A B ord1 := pid_mem_schemaCols A B ord1
  set cs := schemaCols A B ord1 with hcs
  set a2 := reRows A cs with ha2
  set b2 := reRows B cs with hb2
  have ha2keys : a2.map rowKey = A.rows.map rowKey := map_rowKey_reRows hpid
  have hb2keys : b2.map rowKey = B.rows.map rowKey := map_rowKey_reRows hpid
  have ha2nd : (a2.map rowKey).Nodup := by rw [ha2keys]; exact hA
  have hb2nd : (b2.map rowKey).Nodup := by rw [hb2keys]; exact hB
  have hrA2 : reindexRow cs rA ∈ a2 := List.mem_map_of_mem _ hrA
  have hrB2 : reindexRow cs rB ∈ b2 := List.mem_map_of_mem _ hrB
  have hkA2 : rowKey (reindexRow cs rA) = k := by rw [rowKey_reindex hpid]; exact hkA
  have hkB2 : rowKey (reindexRow cs rB) = k := by rw [rowKey_reindex hpid]; exact hkB
  have hkInB : keyIn b2 k = true := (keyIn_iff b2 k).mpr ⟨_, hrB2, hkB2⟩
  have hkInA : keyIn a2 k = true := (keyIn_iff a2 k).mpr ⟨_, hrA2, hkA2⟩
  set aC := commonRows a2 b2 with haC
  set bC := commonRows b2 a2 with hbC
  have hrAC : reindexRow cs rA ∈ aC := by
    rw [haC]
    unfold commonRows
    rw [List.mem_filter]
    exact ⟨hrA2, by rw [hkA2]; exact hkInB⟩
  have hrBC : reindexRow cs rB ∈ bC := by
    rw [hbC]
    unfold commonRows
    rw [List.mem_filter]
    exact ⟨hrB2, by rw [hkB2]; exact hkInA⟩
  have haCnd : (aC.map rowKey).Nodup :=
    (List.Sublist.map rowKey (List.filter_sublist a2)).nodup ha2nd
  have hbCnd : (bC.map rowKey).Nodup :=
    (List.Sublist.map rowKey (List.filter_sublist b2)).nodup hb2nd
  have hkckA : k ∈ aC.map rowKey := List.mem_map.mpr ⟨_, hrAC, hkA2⟩
  set ko := commonKeyOrder (aC.map rowKey) (bC.map rowKey) with hko
  have hkond : ko.Nodup := commonKeyOrder_nodup haCnd hbCnd
  have hkmem : k ∈ ko := mem_commonKeyOrder_of_left hkckA
  have hout : (combineCore A B ord1).rows =
      uniqueRows a2 b2 ++ (uniqueRows b2 a2 ++ mergedRows cs aC bC ko) := by
    show (uniqueRows a2 b2 ++ uniqueRows b2 a2 ++ mergedRows cs aC bC ko : List Row) = _
    rw [List.append_assoc]
  have hcols : (combineCore A B ord1).cols = cs := rfl
  have hAu : ∀ m ∈ uniqueRows a2 b2, (rowKey m == k) = false := by
    intro m hm
    rcases List.mem_filter.mp hm with ⟨hm2, hpred⟩
    cases hb : rowKey m == k
    · rfl
    · exfalso
      rw [beq_iff_eq] at hb
      rw [hb, hkInB] at hpred
      simp at hpred
  have hBu : ∀ m ∈ uniqueRows b2 a2, (rowKey m == k) = false := by
    intro m hm
    rcases List.mem_filter.mp hm with ⟨hm2, hpred⟩
    cases hb : rowKey m == k
    · rfl
    · exfalso
      rw [beq_iff_eq] at hb
      rw [hb, hkInA] at hpred
      simp at hpred
  have hmk : ∀ k0 ∈ ko, rowKey (cs.map (fun c => (c, mergeCell aC bC k0 c))) = k0 := by
    intro k0 hk0
    exact rowKey_merged_tab hpid (mem_commonKeyOrder_sub hk0)
  constructor
  · rw [hout, List.filter_append, List.filter_append]
    rw [List.filter_eq_nil_iff.mpr (fun m hm => by rw [hAu m hm]; decide)]
    rw [List.filter_eq_nil_iff.mpr (fun m hm => by rw [hBu m hm]; decide)]
    simp only [List.nil_append]
    unfold mergedRows
    rw [List.filter_map]
    have hcongr : ko.filter
        ((fun m => rowKey m == k) ∘ (fun k0 => cs.map (fun c => (c, mergeCell aC bC k0 c)))) =
        ko.filter (fun k0 => k0 == k) := by
      apply List.filter_congr
      intro k0 hk0
      show (rowKey (cs.map (fun c => (c, mergeCell aC bC k0 c))) == k) = (k0 == k)
      rw [hmk k0 hk0]
    rw [hcongr, filter_beq_of_nodup hkond hkmem]
    simp
  · intro m hm hkm c hc
    rw [hout] at hm
    rcases List.mem_append.mp hm with hmu | hm2
    · exfalso
      have := hAu m hmu
      rw [hkm] at this
      simp at this
    rcases List.mem_append.mp hm2 with hmu | hmm
    · exfalso
      have := hBu m hmu
      rw [hkm] at this
      simp at this
    rcases List.mem_map.mp hmm with ⟨k0, hk0, hmeq⟩
    have hk0k : k0 = k := by
      rw [← hkm, ← hmeq]
      exact (hmk k0 hk0).symm
    subst hk0k
    rw [← hmeq]
    rw [hcols] at hc
    rw [rowGet_tabulate cs (mergeCell aC bC k0) c, if_pos hc]
    unfold mergeCell
    rw [getCellByKey_unique haCnd hrAC hkA2 c, getCellByKey_unique hbCnd hrBC hkB2 c]
    rw [rowGet_reindex, if_pos hc, rowGet_reindex, if_pos hc]

/-- Example pair of frames for the gap-filling merge: the concrete example
of the specification. -/
def mergeExA : DF :=
  ⟨["property_id", "price", "rooms"],
   [[("property_id", some (Val.s "1")), ("price", none), ("rooms", some (Val.i 3))]]⟩

/-- Second side of the merge example. -/
def mergeExB : DF :=
  ⟨["property_id", "price", "rooms"],
   [[("property_id", some (Val.s "1")), ("price", some (Val.i 250000)), ("rooms", none)]]⟩

/-- C1 witness: the merge example of the specification run through the
theorem, with the concrete merged record checked. -/
theorem claim_C1_witness :
    (((combineCore mergeExA mergeExB []).rows.filter
        (fun m => rowKey m == (some (Val.s "1") : Cell))).length = 1 ∧
     (∀ m ∈ (combineCore mergeExA mergeExB []).rows, rowKey m = some (Val.s "1") →
       ∀ c ∈ (combineCore mergeExA mergeExB []).cols,
         rowGet m c =
           (match rowGet [("property_id", some (Val.s "1")), ("price", (none : Cell)),
                          ("rooms", some (Val.i 3))] c with
            | some v => some v
            | none => rowGet [("property_id", some (Val.s "1")),
                              ("price", some (Val.i 250000)),
                              ("rooms", (none : Cell))] c))) ∧
    (∀ m ∈ (combineCore mergeExA mergeExB []).rows,
      rowGet m "price" = some (Val.i 250000) ∧ rowGet m "rooms" = some (Val.i 3)) := by
  constructor
  · exact claim_C1 mergeExA mergeExB [] (some (Val.s "1"))
      [("property_id", some (Val.s "1")), ("price", none), ("rooms", some (Val.i 3))]
      [("property_id", some (Val.s "1")), ("price", some (Val.i 250000)), ("rooms", none)]
      (by decide) (by decide) (by decide) (by decide) (by decide) (by decide)
  · decide

/-- Example frames for the missing-key behaviour: both sides carry one
record with no key value. -/
def nullKeyExA : DF :=
  ⟨["property_id", "price"], [[("property_id", (none : Cell)), ("price", some (Val.i 1))]]⟩

/-- Second side of the missing-key example, also with a key-less record. -/
def nullKeyExB : DF :=
  ⟨["property_id", "rooms"], [[("property_id", (none : Cell)), ("rooms", some (Val.i 2))]]⟩

/-- A B-side frame whose only record carries a proper key. -/
def someKeyExB : DF :=
  ⟨["property_id", "rooms"],
   [[("property_id", some (Val.s "2")), ("rooms", some (Val.i 2))]]⟩

/-- C4 counterexample: when both sides hold a record without a key, the
missing keys match each other and the two records are merged into a single
output record carrying the fields of both sides, refuting that a key-less
record is never merged with a key-less record from the other side. -/
theorem claim_C4_counterexample :
    (combineCore nullKeyExA nullKeyExB ["rooms"]).rows =
      [[("property_id", (none : Cell)), ("price", some (Val.i 1)),
        ("rooms", some (Val.i 2))]] := by
  decide

/-- An A-side frame whose only record carries a proper key. -/
def someKeyExA : DF :=
  ⟨["property_id", "price"],
   [[("property_id", some (Val.s "1")), ("price", some (Val.i 1))]]⟩

/-- A key-less record of the left row list lands in the left unmatched
block whenever the right frame carries no key-less record. -/
theorem uniqueRows_mem_of_nullkey (X Y : DF) (cs : List String)
    (hpid : "property_id" ∈ cs)
    (hYkeys : ∀ r ∈ Y.rows, rowKey r ≠ (none : Cell)) :
    ∀ r ∈ X.rows, rowKey r = (none : Cell) →
      reindexRow cs r ∈ uniqueRows (reRows X cs) (reRows Y cs) := by
  intro r hr hk
  have hkr : rowKey (reindexRow cs r) = (none : Cell) := by
    rw [rowKey_reindex hpid]
    exact hk
  have hnotY : keyIn (reRows Y cs) (none : Cell) = false := by
    cases hky : keyIn (reRows Y cs) (none : Cell)
    · rfl
    · exfalso
      rcases (keyIn_iff _ _).mp hky with ⟨r2, hr2, hk2⟩
      unfold reRows at hr2
      rcases List.mem_map.mp hr2 with ⟨r0, hr0, hre⟩
      apply hYkeys r0 hr0
      rw [← rowKey_reindex hpid r0, hre]
      exact hk2
  unfold uniqueRows
  rw [List.mem_filter]
  constructor
  · exact List.mem_map_of_mem _ hr
  · rw [hkr, hnotY]
    rfl

/-- C4 (amended): a record with a missing key is treated as carrying the
null key value: when the other side has no missing-key record, a key-less
record of either side is routed to its own side's unmatched block and so
appears reindexed in the output with all its cell values intact, never
dropped; only when both sides hold missing-key records are those records
matched and merged with each other. -/
theorem claim_C4_amended (A B : DF) (ord1 : List String) :
    ((∀ r ∈ B.rows, rowKey r ≠ (none : Cell)) →
      ∀ r ∈ A.rows, rowKey r = (none : Cell) →
        reindexRow (schemaCols A B ord1) r ∈
          uniqueRows (reRows A (schemaCols A B ord1)) (reRows B (schemaCols A B ord1)) ∧
        reindexRow (schemaCols A B ord1) r ∈ (combineCore A B ord1).rows ∧
        (∀ c ∈ (combineCore A B ord1).cols,
          rowGet (reindexRow (schemaCols A B ord1) r) c = rowGet r c)) ∧
    ((∀ r ∈ A.rows, rowKey r ≠ (none : Cell)) →
      ∀ r ∈ B.rows, rowKey r = (none : Cell) →
        reindexRow (schemaCols A B ord1) r ∈
          uniqueRows (reRows B (schemaCols A B ord1)) (reRows A (schemaCols A B ord1)) ∧
        reindexRow (schemaCols A B ord1) r ∈ (combineCore A B ord1).rows ∧
        (∀ c ∈ (combineCore A B ord1).cols,
          rowGet (reindexRow (schemaCols A B ord1) r) c = rowGet r c)) := by
  have hpid : "property_id" ∈ schemaCols A B ord1 := pid_mem_schemaCols A B ord1
  set cs := schemaCols A B ord1 with hcs
  constructor
  · intro hB r hr hk
    have hu := uniqueRows_mem_of_nullkey A B cs hpid hB r hr hk
    refine ⟨hu, ?_, ?_⟩
    · show reindexRow cs r ∈
        (uniqueRows (reRows A cs) (reRows B cs) ++
          uniqueRows (reRows B cs) (reRows A cs) ++ _ : List Row)
      exact List.mem_append.mpr (Or.inl (List.mem_append.mpr (Or.inl hu)))
    · intro c hc
      have hcc : c ∈ cs := hc
      rw [rowGet_reindex, if_pos hcc]
  · intro hA r hr hk
    have hu := uniqueRows_mem_of_nullkey B A cs hpid hA r hr hk
    refine ⟨hu, ?_, ?_⟩
    · show reindexRow cs r ∈
        (uniqueRows (reRows A cs) (reRows B cs) ++
          uniqueRows (reRows B cs) (reRows A cs) ++ _ : List Row)
      exact List.mem_append.mpr (Or.inl (List.mem_append.mpr (Or.inr hu)))
    · intro c hc
      have hcc : c ∈ cs := hc
      rw [rowGet_reindex, if_pos hcc]

/-- C4 witness: a key-less record on the A side passes through the merge
unharmed into the A unmatched block when the B side has no key-less
record, and symmetrically a key-less B record passes into the B unmatched
block when the A side has none. -/
theorem claim_C4_witness :
    (reindexRow (schemaCols nullKeyExA someKeyExB ["rooms"])
        [("property_id", (none : Cell)), ("price", some (Val.i 1))] ∈
      uniqueRows (reRows nullKeyExA (schemaCols nullKeyExA someKeyExB ["rooms"]))
        (reRows someKeyExB (schemaCols nullKeyExA someKeyExB ["rooms"])) ∧
     reindexRow (schemaCols nullKeyExA someKeyExB ["rooms"])
        [("property_id", (none : Cell)), ("price", some (Val.i 1))] ∈
      (combineCore nullKeyExA someKeyExB ["rooms"]).rows ∧
     (∀ c ∈ (combineCore nullKeyExA someKeyExB ["rooms"]).cols,
       rowGet (reindexRow (schemaCols nullKeyExA someKeyExB ["rooms"])
           [("property_id", (none : Cell)), ("price", some (Val.i 1))]) c =
         rowGet [("property_id", (none : Cell)), ("price", some (Val.i 1))] c)) ∧
    (reindexRow (schemaCols someKeyExA nullKeyExB ["rooms"])
        [("property_id", (none : Cell)), ("rooms", some (Val.i 2))] ∈
      uniqueRows (reRows nullKeyExB (schemaCols someKeyExA nullKeyExB ["rooms"]))
        (reRows someKeyExA (schemaCols someKeyExA nullKeyExB ["rooms"])) ∧
     reindexRow (schemaCols someKeyExA nullKeyExB ["rooms"])
        [("property_id", (none : Cell)), ("rooms", some (Val.i 2))] ∈
      (combineCore someKeyExA nullKeyExB ["rooms"]).rows ∧
     (∀ c ∈ (combineCore someKeyExA nullKeyExB ["rooms"]).cols,
       rowGet (reindexRow (schemaCols someKeyExA nullKeyExB ["rooms"])
           [("property_id", (none : Cell)), ("rooms", some (Val.i 2))]) c =
         rowGet [("property_id", (none : Cell)), ("rooms", some (Val.i 2))] c)) := by
  constructor
  · exact (claim_C4_amended nullKeyExA someKeyExB ["rooms"]).1 (by decide)
      [("property_id", (none : Cell)), ("price", some (Val.i 1))] (by decide) (by decide)
  · exact (claim_C4_amended someKeyExA nullKeyExB ["rooms"]).2 (by decide)
      [("property_id", (none : Cell)), ("rooms", some (Val.i 2))] (by decide) (by decide)

/-- Frames whose common keys appear in different orders on the two sides. -/
def orderExA : DF :=
  ⟨["property_id", "price"],
   [[("property_id", some (Val.s "b")), ("price", some (Val.i 10))],
    [("property_id", some (Val.s "a")), ("price", some (Val.i 20))]]⟩

/-- Second side of the ordering example, listing the same keys reversed. -/
def orderExB : DF :=
  ⟨["property_id", "price"],
   [[("property_id", some (Val.s "a")), ("price", some (Val.i 30))],
    [("property_id", some (Val.s "b")), ("price", some (Val.i 40))]]⟩

/-- C5 counterexample: with common keys listed as b then a on side A and a
then b on side B, the merged block comes out sorted ascending by key, so
the merged records do not preserve the original relative order of either
side. -/
theorem claim_C5_counterexample :
    (combineCore orderExA orderExB []).rows.map rowKey =
      [some (Val.s "a"), some (Val.s "b")] ∧
    orderExA.rows.map rowKey = [some (Val.s "b"), some (Val.s "a")] ∧
    (combineCore orderExA orderExB []).rows.map rowKey ≠ orderExA.rows.map rowKey := by
  refine ⟨by decide, by decide, by decide⟩

/-- C5 (amended): the output is the unique-to-A records, then the
unique-to-B records, then the merged common records; the two unique blocks
are order-preserving filters of their input sides, but the merged block is
ordered by the aligned union index: the A-side order when both sides list
the common keys identically, otherwise the sorted union of the keys. -/
theorem claim_C5_amended (A B : DF) (ord1 : List String) :
    ∃ merged : List Row,
      (combineCore A B ord1).rows =
        (A.rows.filter (fun r => !(keyIn B.rows (rowKey r)))).map
          (reindexRow (schemaCols A B ord1)) ++
        (B.rows.filter (fun r => !(keyIn A.rows (rowKey r)))).map
          (reindexRow (schemaCols A B ord1)) ++ merged ∧
      merged.map rowKey =
        commonKeyOrder
          ((A.rows.filter (fun r => keyIn B.rows (rowKey r))).map rowKey)
          ((B.rows.filter (fun r => keyIn A.rows (rowKey r))).map rowKey) ∧
      ((A.rows.filter (fun r => !(keyIn B.rows (rowKey r)))).Sublist A.rows ∧
       (B.rows.filter (fun r => !(keyIn A.rows (rowKey r)))).Sublist B.rows) := by
  have hpid : "property_id" ∈ schemaCols A B ord1 := pid_mem_schemaCols A B ord1
  set cs := schemaCols A B ord1 with hcs
  have hkeyA : ∀ k, keyIn (reRows A cs) k = keyIn A.rows k :=
    keyIn_congr (map_rowKey_reRows hpid)
  have hkeyB : ∀ k, keyIn (reRows B cs) k = keyIn B.rows k :=
    keyIn_congr (map_rowKey_reRows hpid)
  have huA : uniqueRows (reRows A cs) (reRows B cs) =
      (A.rows.filter (fun r => !(keyIn B.rows (rowKey r)))).map (reindexRow cs) := by
    unfold uniqueRows reRows
    rw [List.filter_map]
    congr 1
    apply List.filter_congr
    intro r hr
    show (!(keyIn (reRows B cs) (rowKey (reindexRow cs r)))) = _
    rw [rowKey_reindex hpid, hkeyB]
  have huB : uniqueRows (reRows B cs) (reRows A cs) =
      (B.rows.filter (fun r => !(keyIn A.rows (rowKey r)))).map (reindexRow cs) := by
    unfold uniqueRows reRows
    rw [List.filter_map]
    congr 1
    apply List.filter_congr
    intro r hr
    show (!(keyIn (reRows A cs) (rowKey (reindexRow cs r)))) = _
    rw [rowKey_reindex hpid, hkeyA]
  have hcA : (commonRows (reRows A cs) (reRows B cs)).map rowKey =
      (A.rows.filter (fun r => keyIn B.rows (rowKey r))).map rowKey := by
    unfold commonRows reRows
    rw [List.filter_map, List.map_map]
    have hfc : List.filter
        ((fun r => keyIn (List.map (reindexRow cs) B.rows) (rowKey r)) ∘ reindexRow cs)
          A.rows =
        A.rows.filter (fun r => keyIn B.rows (rowKey r)) := by
      apply List.filter_congr
      intro r hr
      show keyIn (List.map (reindexRow cs) B.rows) (rowKey (reindexRow cs r)) = _
      rw [rowKey_reindex hpid]
      exact hkeyB _
    rw [hfc]
    apply List.map_congr_left
    intro r hr
    exact rowKey_reindex hpid r
  have hcB : (commonRows (reRows B cs) (reRows A cs)).map rowKey =
      (B.rows.filter (fun r => keyIn A.rows (rowKey r))).map rowKey := by
    unfold commonRows reRows
    rw [List.filter_map, List.map_map]
    have hfc : List.filter
        ((fun r => keyIn (List.map (reindexRow cs) A.rows) (rowKey r)) ∘ reindexRow cs)
          B.rows =
        B.rows.filter (fun r => keyIn A.rows (rowKey r)) := by
      apply List.filter_congr
      intro r hr
      show keyIn (List.map (reindexRow cs) A.rows) (rowKey (reindexRow cs r)) = _
      rw [rowKey_reindex hpid]
      exact hkeyA _
    rw [hfc]
    apply List.map_congr_left
    intro r hr
    exact rowKey_reindex hpid r
  refine ⟨mergedRows cs (commonRows (reRows A cs) (reRows B cs))
      (commonRows (reRows B cs) (reRows A cs))
      (commonKeyOrder ((commonRows (reRows A cs) (reRows B cs)).map rowKey)
        ((commonRows (reRows B cs) (reRows A cs)).map rowKey)), ?_, ?_, ?_, ?_⟩
  · show (uniqueRows (reRows A cs) (reRows B cs) ++
        uniqueRows (reRows B cs) (reRows A cs) ++ _ : List Row) = _
    rw [huA, huB]
  · unfold mergedRows
    rw [List.map_map]
    have hall : ∀ k0 ∈ commonKeyOrder
        ((commonRows (reRows A cs) (reRows B cs)).map rowKey)
        ((commonRows (reRows B cs) (reRows A cs)).map rowKey),
        (rowKey ∘ (fun k => cs.map (fun c => (c, mergeCell
          (commonRows (reRows A cs) (reRows B cs))
          (commonRows (reRows B cs) (reRows A cs)) k c)))) k0 = k0 := by
      intro k0 hk0
      exact rowKey_merged_tab hpid (mem_commonKeyOrder_sub hk0)
    rw [List.map_congr_left hall]
    rw [show (fun (a : Cell) => a) = @id Cell from rfl, List.map_id, hcA, hcB]
  · exact List.filter_sublist A.rows
  · exact List.filter_sublist B.rows

/-! Stability of the completeness sort. -/

theorem filter_orderedInsert_count (n : Nat) (a : String × Nat) (l : List (String × Nat)) :
    (List.orderedInsert (fun p q => q.2 ≤ p.2) a l).filter (fun p => p.2 == n) =
      if a.2 = n then a :: l.filter (fun p => p.2 == n)
      else l.filter (fun p => p.2 == n) := by
  induction l with
  | nil =>
    by_cases h : a.2 = n
    · rw [if_pos h]
      simp [List.orderedInsert, List.filter, h]
    · rw [if_neg h]
      have : (a.2 == n) = false := by
        cases hb : a.2 == n
        · rfl
        · exact absurd (by rwa [beq_iff_eq] at hb) h
      simp [List.orderedInsert, List.filter, this]
  | cons b t ih =>
    show (if b.2 ≤ a.2 then a :: b :: t
          else b :: List.orderedInsert (fun p q => q.2 ≤ p.2) a t).filter
            (fun p => p.2 == n) = _
    by_cases hr : b.2 ≤ a.2
    · rw [if_pos hr]
      by_cases h : a.2 = n
      · rw [if_pos h, List.filter_cons]
        have ha : (a.2 == n) = true := by rw [beq_iff_eq]; exact h
        rw [ha]
        simp
      · rw [if_neg h, List.filter_cons]
        have ha : (a.2 == n) = false := by
          cases hb : a.2 == n
          · rfl
          · exact absurd (by rwa [beq_iff_eq] at hb) h
        rw [ha]
        simp
    · rw [if_neg hr]
      rw [List.filter_cons, List.filter_cons]
      by_cases h : a.2 = n
      · rw [if_pos h] at ih ⊢
        have hbn : (b.2 == n) = false := by
          cases hb : b.2 == n
          · rfl
          · exfalso
            rw [beq_iff_eq] at hb
            rw [hb, ← h] at hr
            exact hr (le_refl a.2)
        rw [hbn]
        simp only [Bool.false_eq_true, if_false]
        rw [ih]
      · rw [if_neg h] at ih ⊢
        cases hb : b.2 == n
        · simp only [Bool.false_eq_true, if_false]
          rw [ih]
        · simp only [if_true]
          rw [ih]

theorem filter_insertionSort_count (n : Nat) (l : List (String × Nat)) :
    (List.insertionSort (fun p q => q.2 ≤ p.2) l).filter (fun p => p.2 == n) =
      l.filter (fun p => p.2 == n) := by
  induction l with
  | nil => rfl
  | cons a t ih =>
    show (List.orderedInsert (fun p q => q.2 ≤ p.2) a
        (List.insertionSort (fun p q => q.2 ≤ p.2) t)).filter (fun p => p.2 == n) = _
    rw [filter_orderedInsert_count, List.filter_cons]
    by_cases h : a.2 = n
    · rw [if_pos h, ih]
      have ha : (a.2 == n) = true := by rw [beq_iff_eq]; exact h
      rw [ha]
      simp
    · rw [if_neg h, ih]
      have ha : (a.2 == n) = false := by
        cases hb : a.2 == n
        · rfl
        · exact absurd (by rwa [beq_iff_eq] at hb) h
      rw [ha]
      simp

/-- A frame for the schema-order example: one extra column a besides the key. -/
def schemaExA : DF :=
  ⟨["property_id", "a"], [[("property_id", some (Val.s "1")), ("a", some (Val.i 1))]]⟩

/-- Second frame of the schema-order example: two extra columns x and y
with equal non-null counts. -/
def schemaExB : DF :=
  ⟨["property_id", "x", "y"],
   [[("property_id", some (Val.s "2")), ("x", some (Val.i 1)), ("y", some (Val.i 2))]]⟩

/-- C6 counterexample: the columns x and y live only in B and tie on
non-null count; the output schema follows the order in which Python
happens to enumerate the set difference, so the same inputs admit two
different schemas, and neither tie order is forced to be the first-seen
order of the concatenation: the schema order is not a function of the
inputs alone. -/
theorem claim_C6_counterexample :
    (["x", "y"] : List String).Perm
      (schemaExB.cols.filter (fun c => !(schemaExA.cols.contains c))) ∧
    (["y", "x"] : List String).Perm
      (schemaExB.cols.filter (fun c => !(schemaExA.cols.contains c))) ∧
    schemaCols schemaExA schemaExB ["x", "y"] = ["property_id", "a", "x", "y"] ∧
    schemaCols schemaExA schemaExB ["y", "x"] = ["property_id", "a", "y", "x"] ∧
    schemaCols schemaExA schemaExB ["x", "y"] ≠ schemaCols schemaExA schemaExB ["y", "x"] := by
  refine ⟨by decide, by decide, by decide, by decide, by decide⟩

/-- C6 (amended): the output schema places property_id first; the
remaining columns are a permutation of the other columns of the
concatenation (the columns of A followed by the columns only in B, in the
set-enumeration order ord1 that Python happens to produce), sorted by
non-increasing non-null count; ties keep the concatenation order, so ties
among the columns of A follow the first-seen order of A while ties among
B-only columns follow the unspecified set-enumeration order: the result is
deterministic only relative to that enumeration. -/
theorem claim_C6_amended (A B : DF) (ord1 : List String)
    (_hord : ord1.Perm (B.cols.filter (fun c => !(A.cols.contains c)))) :
    ∃ rest : List String,
      schemaCols A B ord1 = "property_id" :: rest ∧
      rest.Perm ((tempCols A ord1).filter (fun c => !(c == "property_id"))) ∧
      List.Pairwise (fun c1 c2 => nnCount (A.rows ++ B.rows) c2 ≤
        nnCount (A.rows ++ B.rows) c1) rest ∧
      (∀ n : Nat, rest.filter (fun c => nnCount (A.rows ++ B.rows) c == n) =
        ((tempCols A ord1).filter (fun c => !(c == "property_id"))).filter
          (fun c => nnCount (A.rows ++ B.rows) c == n)) := by
  set cnt := nnCount (A.rows ++ B.rows) with hcnt
  set base := (tempCols A ord1).filter (fun c => !(c == "property_id")) with hbase
  set pairs := base.map (fun c => (c, cnt c)) with hpairs
  set sorted := List.insertionSort (fun p q : String × Nat => q.2 ≤ p.2) pairs
    with hsorted
  haveI htotal : IsTotal (String × Nat) (fun p q => q.2 ≤ p.2) :=
    ⟨fun a b => Nat.le_total b.2 a.2⟩
  haveI htrans : IsTrans (String × Nat) (fun p q => q.2 ≤ p.2) :=
    ⟨fun a b c h1 h2 => le_trans h2 h1⟩
  have hperm : sorted.Perm pairs :=
    List.perm_insertionSort (fun p q => q.2 ≤ p.2) pairs
  have hsnd : ∀ p ∈ sorted, p.2 = cnt p.1 := by
    intro p hp
    have hp2 : p ∈ pairs := hperm.mem_iff.mp hp
    rcases List.mem_map.mp hp2 with ⟨c, hc, hpc⟩
    rw [← hpc]
  refine ⟨sorted.map Prod.fst, rfl, ?_, ?_, ?_⟩
  · have h1 : (sorted.map Prod.fst).Perm (pairs.map Prod.fst) := hperm.map Prod.fst
    have h2 : pairs.map Prod.fst = base := by
      rw [hpairs, List.map_map]
      have : (Prod.fst ∘ fun c => (c, cnt c)) = @id String := rfl
      rw [this, List.map_id]
    rw [h2] at h1
    exact h1
  · have hsort := List.sorted_insertionSort (fun p q : String × Nat => q.2 ≤ p.2) pairs
    rw [List.pairwise_map]
    apply hsort.imp_of_mem
    intro p q hp hq hle
    rw [← hsnd p hp, ← hsnd q hq]
    exact hle
  · intro n
    rw [List.filter_map]
    have hfc : sorted.filter ((fun c => cnt c == n) ∘ Prod.fst) =
        sorted.filter (fun p => p.2 == n) := by
      apply List.filter_congr
      intro p hp
      show (cnt p.1 == n) = (p.2 == n)
      rw [hsnd p hp]
    rw [hfc]
    rw [show sorted.filter (fun p => p.2 == n) = pairs.filter (fun p => p.2 == n) from
      filter_insertionSort_count n pairs]
    rw [hpairs, List.filter_map, List.map_map]
    have hpc : ((fun p : String × Nat => p.2 == n) ∘ fun c => (c, cnt c)) =
        (fun c => cnt c == n) := rfl
    rw [hpc]
    have hfst : (Prod.fst ∘ fun c => (c, cnt c)) = @id String := rfl
    rw [hfst, List.map_id]

/-- C6 witness: the amended theorem applied to the schema example with the
enumeration order x then y. -/
theorem claim_C6_witness :
    ∃ rest : List String,
      schemaCols schemaExA schemaExB ["x", "y"] = "property_id" :: rest ∧
      rest.Perm ((tempCols schemaExA ["x", "y"]).filter (fun c => !(c == "property_id"))) ∧
      List.Pairwise (fun c1 c2 => nnCount (schemaExA.rows ++ schemaExB.rows) c2 ≤
        nnCount (schemaExA.rows ++ schemaExB.rows) c1) rest ∧
      (∀ n : Nat, rest.filter
          (fun c => nnCount (schemaExA.rows ++ schemaExB.rows) c == n) =
        ((tempCols schemaExA ["x", "y"]).filter (fun c => !(c == "property_id"))).filter
          (fun c => nnCount (schemaExA.rows ++ schemaExB.rows) c == n)) :=
  claim_C6_amended schemaExA schemaExB ["x", "y"] (by decide)
